import Mathlib

/-!
Verification development for a Riichi Mahjong hand-evaluation engine.

The engine's core operates on 34-slot tile-count vectors (`List Nat` of
length 34): slots 0-8 are the characters 1m..9m, 9-17 the circles, 18-26 the
bamboos, 27-33 the honours E S W N P F C.  Python strings are modelled as
`List Char`, Python `int` results that can be negative as `Int`, raising
functions as `Option`-valued functions.  Mutating loops of the source are
modelled by threading the list state (`List.set`).
-/

namespace Mahjong

/-! ## List toolkit: `getD`/`set`/`sum`/`countP` interaction lemmas -/

theorem getD_zero_of_length_le (c : List Nat) (i : Nat) (h : c.length ≤ i) :
    c.getD i 0 = 0 := by
  induction c generalizing i with
  | nil => simp [List.getD]
  | cons a c ih =>
    cases i with
    | zero => simp at h
    | succ i => simpa using ih i (by simpa using h)

theorem lt_length_of_getD_pos (c : List Nat) (i : Nat) (h : 0 < c.getD i 0) :
    i < c.length := by
  by_contra hc
  rw [getD_zero_of_length_le c i (by omega)] at h
  omega

theorem set_of_length_le (c : List Nat) (i : Nat) (v : Nat) (h : c.length ≤ i) :
    c.set i v = c := by
  induction c generalizing i with
  | nil => simp
  | cons a c ih =>
    cases i with
    | zero => simp at h
    | succ i => simpa using ih i (by simpa using h)

theorem getD_set_self (c : List Nat) (i : Nat) (v : Nat) (h : i < c.length) :
    (c.set i v).getD i 0 = v := by
  induction c generalizing i with
  | nil => simp at h
  | cons a c ih =>
    cases i with
    | zero => simp
    | succ i => simpa using ih i (by simpa using h)

theorem getD_set_ne (c : List Nat) (i j v : Nat) (h : j ≠ i) :
    (c.set i v).getD j 0 = c.getD j 0 := by
  induction c generalizing i j with
  | nil => simp
  | cons a c ih =>
    cases i with
    | zero => cases j with
      | zero => omega
      | succ j => simp
    | succ i =>
      cases j with
      | zero => simp
      | succ j => simpa using ih i j (by omega)

theorem sum_set_add (c : List Nat) (i : Nat) (v : Nat) (h : i < c.length) :
    (c.set i v).sum + c.getD i 0 = c.sum + v := by
  induction c generalizing i with
  | nil => simp at h
  | cons a c ih =>
    cases i with
    | zero => simp [Nat.add_comm, Nat.add_left_comm]
    | succ i =>
      have := ih i (by simpa using h)
      simp only [List.set_cons_succ, List.sum_cons, List.getD_cons_succ]
      omega

theorem sum_set_sub (c : List Nat) (i : Nat) (k : Nat) (h : i < c.length)
    (hk : k ≤ c.getD i 0) : (c.set i (c.getD i 0 - k)).sum = c.sum - k := by
  have := sum_set_add c i (c.getD i 0 - k) h
  omega

theorem set_getD_self (c : List Nat) (i : Nat) : c.set i (c.getD i 0) = c := by
  induction c generalizing i with
  | nil => simp
  | cons a c ih =>
    cases i with
    | zero => simp
    | succ i => simpa using ih i

theorem countP_set (c : List Nat) (i : Nat) (v : Nat) (p : Nat → Bool)
    (h : i < c.length) :
    (c.set i v).countP p + (if p (c.getD i 0) then 1 else 0) =
      c.countP p + (if p v then 1 else 0) := by
  induction c generalizing i with
  | nil => simp at h
  | cons a c ih =>
    cases i with
    | zero => simp [List.countP_cons]; split <;> split <;> simp [Nat.add_comm]
    | succ i =>
      have := ih i (by simpa using h)
      simp only [List.set_cons_succ, List.countP_cons, List.getD_cons_succ]
      split <;> omega

theorem map_set (c : List Nat) (i : Nat) (v : Nat) (f : Nat → Nat) :
    (c.set i v).map f = (c.map f).set i (f v) := by
  induction c generalizing i with
  | nil => simp
  | cons a c ih =>
    cases i with
    | zero => simp
    | succ i => simpa using ih i

theorem getD_map (c : List Nat) (i : Nat) (f : Nat → Nat) (h : i < c.length) :
    (c.map f).getD i 0 = f (c.getD i 0) := by
  induction c generalizing i with
  | nil => simp at h
  | cons a c ih =>
    cases i with
    | zero => simp
    | succ i => simpa using ih i (by simpa using h)

/-- First index holding a non-zero count, as the source's
`next((idx for idx, c in enumerate(counts) if c), -1)` (with `none` for -1). -/
def firstNZ : List Nat → Option Nat
  | [] => none
  | x :: rest => if x ≠ 0 then some 0 else (firstNZ rest).map (· + 1)

theorem firstNZ_none (c : List Nat) (h : firstNZ c = none) (j : Nat) :
    c.getD j 0 = 0 := by
  induction c generalizing j with
  | nil => simp [List.getD]
  | cons a c ih =>
    rw [firstNZ] at h
    by_cases ha : a ≠ 0
    · simp [ha] at h
    · cases j with
      | zero => simpa using ha
      | succ j =>
        simp only [ha, if_neg, ite_false, Option.map_eq_none] at h
        · simpa using ih (by simpa using h) j

theorem firstNZ_of_sum_zero (c : List Nat) (h : c.sum = 0) : firstNZ c = none := by
  induction c with
  | nil => rfl
  | cons a c ih =>
    simp only [List.sum_cons] at h
    rw [firstNZ]
    have ha : a = 0 := by omega
    simp [ha, ih (by omega)]

theorem firstNZ_some_pos (c : List Nat) (i : Nat) (h : firstNZ c = some i) :
    0 < c.getD i 0 := by
  induction c generalizing i with
  | nil => simp [firstNZ] at h
  | cons a c ih =>
    rw [firstNZ] at h
    by_cases ha : a ≠ 0
    · rw [if_pos ha] at h
      obtain rfl : (0 : Nat) = i := by simpa using h
      simpa using Nat.pos_of_ne_zero ha
    · rw [if_neg ha] at h
      cases hr : firstNZ c with
      | none => rw [hr] at h; simp at h
      | some i' =>
        rw [hr] at h
        obtain rfl : i' + 1 = i := by simpa using h
        simpa using ih i' hr

theorem firstNZ_some_min (c : List Nat) (i : Nat) (h : firstNZ c = some i)
    (j : Nat) (hj : j < i) : c.getD j 0 = 0 := by
  induction c generalizing i j with
  | nil => simp [firstNZ] at h
  | cons a c ih =>
    rw [firstNZ] at h
    by_cases ha : a ≠ 0
    · rw [if_pos ha] at h
      obtain rfl : (0 : Nat) = i := by simpa using h
      omega
    · rw [if_neg ha] at h
      cases hr : firstNZ c with
      | none => rw [hr] at h; simp at h
      | some i' =>
        rw [hr] at h
        obtain rfl : i' + 1 = i := by simpa using h
        cases j with
        | zero => simpa using ha
        | succ j => simpa using ih i' hr j (by omega)

theorem firstNZ_lt_length (c : List Nat) (i : Nat) (h : firstNZ c = some i) :
    i < c.length :=
  lt_length_of_getD_pos c i (firstNZ_some_pos c i h)

/-! ## Tile codec (`tiles.py`)

Python strings are `List Char`.  `TILES` is the source's `_INDEX_TO_TILE`
table: the suit loops fill indices 0..26 with `1m..9m`, `1p..9p`, `1s..9s`
and the honour loop fills 27..33 with `E S W N P F C`. -/

def TILES : List (List Char) :=
  [['1', 'm'], ['2', 'm'], ['3', 'm'], ['4', 'm'], ['5', 'm'], ['6', 'm'],
   ['7', 'm'], ['8', 'm'], ['9', 'm'],
   ['1', 'p'], ['2', 'p'], ['3', 'p'], ['4', 'p'], ['5', 'p'], ['6', 'p'],
   ['7', 'p'], ['8', 'p'], ['9', 'p'],
   ['1', 's'], ['2', 's'], ['3', 's'], ['4', 's'], ['5', 's'], ['6', 's'],
   ['7', 's'], ['8', 's'], ['9', 's'],
   ['E'], ['S'], ['W'], ['N'], ['P'], ['F'], ['C']]

/-- The source's `TILE_INDICES` dict: token to index 0..33. -/
def TILE_INDICES : List (List Char × Nat) :=
  (TILES.zip (List.range 34))

def TERMINAL_HONOR_INDICES : List Nat :=
  [0, 8, 9, 17, 18, 26, 27, 28, 29, 30, 31, 32, 33]

/-- Python `str.strip()`: drop whitespace from both ends. -/
def stripChars (l : List Char) : List Char :=
  ((l.dropWhile Char.isWhitespace).reverse.dropWhile Char.isWhitespace).reverse

/-- The source's `normalize_tile`: strip, reject the empty token, map red
fives `0m|0p|0s` to `5m|5p|5s`, pass everything else through unchanged. -/
def normalize_tile (tile : List Char) : Option (List Char) :=
  let t := stripChars tile
  if t = [] then none
  else if t.length = 2 ∧ t.getD 0 ' ' = '0' ∧
      (t.getD 1 ' ' = 'm' ∨ t.getD 1 ' ' = 'p' ∨ t.getD 1 ' ' = 's') then
    some ['5', t.getD 1 ' ']
  else some t

/-- The source's `tile_to_index`: normalize, then look the token up in
`TILE_INDICES`; an unknown token raises (here: `none`). -/
def tile_to_index (tile : List Char) : Option Nat :=
  (normalize_tile tile).bind fun t => TILE_INDICES.lookup t

/-- The source's `index_to_tile`: raises out of 0..33 (here: `none`). -/
def index_to_tile (idx : Nat) : Option (List Char) :=
  if 0 ≤ idx ∧ idx < 34 then some (TILES.getD idx []) else none

/-- One step of splitting on whitespace: a whitespace character opens a
fresh (possibly empty) chunk, any other character extends the current one. -/
def wsplitStep (c : Char) (acc : List (List Char)) : List (List Char) :=
  if c.isWhitespace then [] :: acc
  else
    match acc with
    | [] => [[c]]
    | t :: rest => (c :: t) :: rest

/-- Python `str.split()`: whitespace-run separated, empty tokens dropped. -/
def wsplit (l : List Char) : List (List Char) :=
  (l.foldr wsplitStep []).filter (fun t => !t.isEmpty)

/-- The source's `parse_tiles`: replace commas by blanks, split on
whitespace, drop tokens that strip to nothing, normalize each token. -/
def parse_tiles (text : List Char) : Option (List (List Char)) :=
  let tokens := (wsplit (text.map fun c => if c = ',' then ' ' else c)).filter
    (fun tok => !(stripChars tok).isEmpty)
  tokens.mapM normalize_tile

/-- The source's `tiles_to_counts` loop, threading the counts vector. -/
def tilesToCountsGo (tiles : List (List Char)) (acc : List Nat) : Option (List Nat) :=
  match tiles with
  | [] => some acc
  | t :: rest =>
    match tile_to_index t with
    | none => none
    | some i => tilesToCountsGo rest (acc.set i (acc.getD i 0 + 1))

def tiles_to_counts (tiles : List (List Char)) : Option (List Nat) :=
  tilesToCountsGo tiles (List.replicate 34 0)

/-! ## Shanten engine (`shanten.py`) -/

theorem getD_le_sum (c : List Nat) (i : Nat) : c.getD i 0 ≤ c.sum := by
  induction c generalizing i with
  | nil => simp [List.getD]
  | cons a c ih =>
    cases i with
    | zero => simp
    | succ i =>
      have := ih i
      simp only [List.getD_cons_succ, List.sum_cons]
      omega

/-- Decrement slot `i` by one (`counts[i] -= 1`). -/
def dec1 (c : List Nat) (i : Nat) : List Nat := c.set i (c.getD i 0 - 1)

theorem sum_dec1_le (c : List Nat) (i : Nat) : (dec1 c i).sum ≤ c.sum := by
  rw [dec1]
  rcases Nat.lt_or_ge i c.length with h | h
  · have := sum_set_add c i (c.getD i 0 - 1) h
    omega
  · rw [set_of_length_le c i _ h]

theorem sum_dec1_lt (c : List Nat) (i : Nat) (h : 0 < c.getD i 0) :
    (dec1 c i).sum < c.sum := by
  have hlen : i < c.length := lt_length_of_getD_pos c i h
  have := sum_set_add c i (c.getD i 0 - 1) hlen
  have := getD_le_sum c i
  rw [dec1]
  omega

theorem sum_setsub_lt (c : List Nat) (i k : Nat) (hk : 0 < k)
    (h : 0 < c.getD i 0) : (c.set i (c.getD i 0 - k)).sum < c.sum := by
  have hlen : i < c.length := lt_length_of_getD_pos c i h
  have := sum_set_add c i (c.getD i 0 - k) hlen
  have := getD_le_sum c i
  omega

/-- The shanten value of a partial extraction: `8 - 2*mentsu -
min(taatsu, taatsu_slots) - pair_used` with `taatsu_slots = max(0, 4 -
mentsu)` (natural subtraction `4 - m` is exactly that `max`). -/
def val (m t p : Nat) : Int :=
  8 - 2 * (m : Int) - (min t (4 - m) : Nat) - (p : Int)

/-- The source's inner `dfs` of `_shanten_standard_general`, as a pure
function.  The Python version threads a mutable `counts_local` that every
branch restores, and returns `res`: starting from `sh = val m t p` it takes
`res = min(res, ...)` with the skip branch unconditionally and with each
guarded branch whose guard holds — here the same accumulation as a
`foldl min` over the guarded branch values.  The nonlocal `best` the
source finally returns equals `dfs(counts, 0, 0, 0)` because `best` is the
minimum of `sh` over all visited nodes and every memoised value was
computed at a visited node. -/
def dfs (c : List Nat) (m t p : Nat) : Int :=
  if 4 < m then 999
  else
    match hz : firstNZ c with
    | none => val m t p
    | some i =>
      List.foldl min (min (val m t p) (dfs (dec1 c i) m t p))
        ((if 3 ≤ c.getD i 0 then
            [dfs (c.set i (c.getD i 0 - 3)) (m + 1) t p] else []) ++
         (if i ≤ 26 ∧ i % 9 ≤ 6 ∧ 0 < c.getD (i + 1) 0 ∧ 0 < c.getD (i + 2) 0 then
            [dfs (dec1 (dec1 (dec1 c i) (i + 1)) (i + 2)) (m + 1) t p] else []) ++
         (if p = 0 ∧ 2 ≤ c.getD i 0 then
            [dfs (c.set i (c.getD i 0 - 2)) m t 1] else []) ++
         (if t < 4 then
            (if 2 ≤ c.getD i 0 then
              [dfs (c.set i (c.getD i 0 - 2)) m (t + 1) p] else []) ++
            (if i ≤ 26 ∧ i % 9 ≤ 7 ∧ 0 < c.getD (i + 1) 0 then
              [dfs (dec1 (dec1 c i) (i + 1)) m (t + 1) p] else []) ++
            (if i ≤ 26 ∧ i % 9 ≤ 6 ∧ 0 < c.getD (i + 2) 0 then
              [dfs (dec1 (dec1 c i) (i + 2)) m (t + 1) p] else [])
          else []))
termination_by c.sum
decreasing_by
  · exact sum_dec1_lt c i (firstNZ_some_pos c i hz)
  · exact sum_setsub_lt c i 3 (by omega) (firstNZ_some_pos c i hz)
  · calc (dec1 (dec1 (dec1 c i) (i + 1)) (i + 2)).sum
        ≤ (dec1 (dec1 c i) (i + 1)).sum := sum_dec1_le _ _
      _ ≤ (dec1 c i).sum := sum_dec1_le _ _
      _ < c.sum := sum_dec1_lt c i (firstNZ_some_pos c i hz)
  · exact sum_setsub_lt c i 2 (by omega) (firstNZ_some_pos c i hz)
  · exact sum_setsub_lt c i 2 (by omega) (firstNZ_some_pos c i hz)
  · calc (dec1 (dec1 c i) (i + 1)).sum
        ≤ (dec1 c i).sum := sum_dec1_le _ _
      _ < c.sum := sum_dec1_lt c i (firstNZ_some_pos c i hz)
  · calc (dec1 (dec1 c i) (i + 2)).sum
        ≤ (dec1 c i).sum := sum_dec1_le _ _
      _ < c.sum := sum_dec1_lt c i (firstNZ_some_pos c i hz)

/-- The source's `_shanten_standard_general` (see the comment on `dfs`). -/
def _shanten_standard_general (counts : List Nat) : Int := dfs counts 0 0 0

/-- The source's `shanten_chiitoitsu`; the result may be negative (−1 on a
seven-pairs agari vector), hence `Int`.  `max(0, 7 - unique)` is natural
subtraction. -/
def shanten_chiitoitsu (counts : List Nat) : Int :=
  let pairs : Nat := min ((counts.map (fun x => x / 2)).sum) 7
  let unique : Nat := counts.countP (fun x => decide (0 < x))
  let need_unique : Nat := 7 - unique
  6 - (pairs : Int) + (need_unique : Int)

/-- The source's `shanten_kokushi`. -/
def shanten_kokushi (counts : List Nat) : Int :=
  let unique := TERMINAL_HONOR_INDICES.countP (fun i => decide (0 < counts.getD i 0))
  let has_pair := TERMINAL_HONOR_INDICES.any (fun i => decide (2 ≤ counts.getD i 0))
  13 - (unique : Int) - (if has_pair then 1 else 0)

mutual

/-- The source's `shanten_standard`: on a 14-tile vector, minimise the
13-tile value over all single-tile removals (the `for i in range(34)` loop,
threaded here as `shantenRemovalLoop`); otherwise call the general search. -/
def shanten_standard (counts : List Nat) : Int :=
  if counts.sum = 14 then shantenRemovalLoop 0 8 counts
  else _shanten_standard_general counts
termination_by (counts.sum, 1, 0)
decreasing_by
  all_goals simp_wf
  · exact Prod.Lex.right _ (Prod.Lex.left _ _ (by omega))

/-- The removal loop of `shanten_standard` (loop index and accumulator
first, the counts vector last). -/
def shantenRemovalLoop (i : Nat) (best : Int) (counts : List Nat) : Int :=
  if i < 34 then
    if h : 0 < counts.getD i 0 then
      shantenRemovalLoop (i + 1) (min best (shanten_standard (dec1 counts i))) counts
    else shantenRemovalLoop (i + 1) best counts
  else best
termination_by (counts.sum, 0, 34 - i)
decreasing_by
  · exact Prod.Lex.left _ _ (sum_dec1_lt counts i h)
  · exact Prod.Lex.right _ (Prod.Lex.right _ (by omega))
  · exact Prod.Lex.right _ (Prod.Lex.right _ (by omega))

end

/-- Putting back the tile taken by the removal loop (`counts[i] += 1` after
`counts[i] -= 1`) restores the original list. -/
theorem dec1_inc_restore (c : List Nat) (i : Nat) (h : 0 < c.getD i 0) :
    (dec1 c i).set i ((dec1 c i).getD i 0 + 1) = c := by
  have hlen : i < c.length := lt_length_of_getD_pos c i h
  rw [dec1, getD_set_self c i _ hlen, List.set_set]
  have h1 : c.getD i 0 - 1 + 1 = c.getD i 0 := by omega
  rw [h1, set_getD_self]

mutual

/-- `shanten_standard` with the caller's mutable list threaded explicitly:
the loop decrements `counts[i]`, hands the same list to the recursive call,
and increments it back; the returned pair is (result, final list state).
The subtype records that the list always comes back as it went in, which
the recursion itself needs in order to measure the loop by the list's sum. -/
def shanten_standard_stP (counts : List Nat) :
    { r : Int × List Nat // r.2 = counts } :=
  if counts.sum = 14 then shantenRemovalLoopSt 0 8 counts
  else ⟨(_shanten_standard_general counts, counts), rfl⟩
termination_by (counts.sum, 1, 0)
decreasing_by
  · exact Prod.Lex.right _ (Prod.Lex.left _ _ (by omega))

/-- The state-threaded removal loop of `shanten_standard_stP`. -/
def shantenRemovalLoopSt (i : Nat) (best : Int) (counts : List Nat) :
    { r : Int × List Nat // r.2 = counts } :=
  if i < 34 then
    if h : 0 < counts.getD i 0 then
      let inner := shanten_standard_stP (dec1 counts i)
      let c2 := inner.val.2.set i (inner.val.2.getD i 0 + 1)
      have hc2 : c2 = counts := by
        show inner.val.2.set i (inner.val.2.getD i 0 + 1) = counts
        rw [inner.property]
        exact dec1_inc_restore counts i h
      let out := shantenRemovalLoopSt (i + 1) (min best inner.val.1) c2
      ⟨out.val, by rw [out.property, hc2]⟩
    else shantenRemovalLoopSt (i + 1) best counts
  else ⟨(best, counts), rfl⟩
termination_by (counts.sum, 0, 34 - i)
decreasing_by
  · exact Prod.Lex.left _ _ (sum_dec1_lt counts i h)
  · show Prod.Lex (· < ·) (Prod.Lex (· < ·) (· < ·))
      (c2.sum, 0, 34 - (i + 1)) (counts.sum, 0, 34 - i)
    rw [hc2]
    exact Prod.Lex.right _ (Prod.Lex.right _ (by omega))
  · exact Prod.Lex.right _ (Prod.Lex.right _ (by omega))

end

/-- The (result, final list state) of running `shanten_standard` on the
caller's list. -/
def shanten_standard_st (counts : List Nat) : Int × List Nat :=
  (shanten_standard_stP counts).val

/-! ## Agari testers (`tenpai.py`) -/

/-- The source's `is_agari_chiitoitsu`: total 14 and seven floor-halved
pairs. -/
def is_agari_chiitoitsu (counts14 : List Nat) : Bool :=
  decide (counts14.sum = 14) &&
    decide ((counts14.map (fun x => x / 2)).sum = 7)

/-- The source's `is_agari_kokushi`. -/
def is_agari_kokushi (counts14 : List Nat) : Bool :=
  if counts14.sum ≠ 14 then false
  else
    let unique := TERMINAL_HONOR_INDICES.countP
      (fun i => decide (0 < counts14.getD i 0))
    if unique ≠ 13 then false
    else TERMINAL_HONOR_INDICES.any (fun i => decide (2 ≤ counts14.getD i 0))

/-- The source's `_suit_meldable`: can a 9-slot suit sub-vector be fully
decomposed into triplets and consecutive sequences?  Tries a triplet at
the first non-zero slot, then a sequence there. -/
def _suit_meldable (counts9 : List Nat) : Bool :=
  match hz : firstNZ counts9 with
  | none => true
  | some i =>
    (if 3 ≤ counts9.getD i 0 then
      _suit_meldable (counts9.set i (counts9.getD i 0 - 3)) else false) ||
    (if i ≤ 6 ∧ 0 < counts9.getD (i + 1) 0 ∧ 0 < counts9.getD (i + 2) 0 then
      _suit_meldable (dec1 (dec1 (dec1 counts9 i) (i + 1)) (i + 2)) else false)
termination_by counts9.sum
decreasing_by
  · exact sum_setsub_lt counts9 i 3 (by omega) (firstNZ_some_pos counts9 i hz)
  · calc (dec1 (dec1 (dec1 counts9 i) (i + 1)) (i + 2)).sum
        ≤ (dec1 (dec1 counts9 i) (i + 1)).sum := sum_dec1_le _ _
      _ ≤ (dec1 counts9 i).sum := sum_dec1_le _ _
      _ < counts9.sum := sum_dec1_lt counts9 i (firstNZ_some_pos counts9 i hz)

/-- The source's `_honors_ok`: honour slots 27..33 in whole triplets. -/
def _honors_ok (counts : List Nat) : Bool :=
  (List.range' 27 7).all (fun i => decide (counts.getD i 0 % 3 = 0))

/-- The source's `_suits_ok`: each suit's 9-slot slice is meldable. -/
def _suits_ok (counts : List Nat) : Bool :=
  _suit_meldable (counts.take 9) &&
  _suit_meldable ((counts.drop 9).take 9) &&
  _suit_meldable ((counts.drop 18).take 9)

/-- The source's `is_agari_standard`: total 14, and some pair whose removal
leaves honours in triplets and every suit slice meldable. -/
def is_agari_standard (counts14 : List Nat) : Bool :=
  if counts14.sum ≠ 14 then false
  else
    (List.range 34).any fun pair_idx =>
      if 2 ≤ counts14.getD pair_idx 0 then
        let counts := counts14.set pair_idx (counts14.getD pair_idx 0 - 2)
        _honors_ok counts && _suits_ok counts
      else false

/-! ## Points (`points.py`) -/

/-- The source's `PointsResult` (result, `None`-able payouts as `Option`). -/
structure PointsResult where
  han : Nat
  fu : Nat
  limit_name : Option (List Char)
  is_dealer : Bool
  ron_points : Option Nat
  tsumo_non_dealer_points : Option Nat
  tsumo_dealer_points : Option Nat
deriving DecidableEq, Repr

def ronStr : List Char := ['r', 'o', 'n']

def tsumoStr : List Char := ['t', 's', 'u', 'm', 'o']

def bothStr : List Char := ['b', 'o', 't', 'h']

def _ceil_to_100 (x : Nat) : Nat := ((x + 99) / 100) * 100

/-- The source's `estimate_yakuman_points` (raises become `none`). -/
def estimate_yakuman_points (yakuman_multiplier : Nat) (is_dealer : Bool)
    (win_type : List Char) : Option PointsResult :=
  if yakuman_multiplier < 1 then none
  else if ¬(win_type = ronStr ∨ win_type = tsumoStr ∨ win_type = bothStr) then none
  else
    let base := 8000 * yakuman_multiplier
    let limit_name : List Char :=
      if yakuman_multiplier = 1 then "Yakuman".toList
      else (Nat.repr yakuman_multiplier).toList ++ "x Yakuman".toList
    let ron_points : Option Nat :=
      if win_type = ronStr ∨ win_type = bothStr then
        some (_ceil_to_100 (base * (if is_dealer then 6 else 4))) else none
    let tsumo_dealer : Option Nat :=
      if win_type = tsumoStr ∨ win_type = bothStr then
        some (_ceil_to_100 (base * 2)) else none
    let tsumo_non : Option Nat :=
      if win_type = tsumoStr ∨ win_type = bothStr then
        (if is_dealer then none else some (_ceil_to_100 (base * 1))) else none
    some ⟨0, 0, some limit_name, is_dealer, ron_points, tsumo_non, tsumo_dealer⟩

/-- The source's `_limit_base_points`: (capped base, limit name). -/
def _limit_base_points (han fu base_points : Nat) : Nat × Option (List Char) :=
  if 13 ≤ han then (8000, some "Kazoe Yakuman".toList)
  else if 11 ≤ han then (6000, some "Sanbaiman".toList)
  else if 8 ≤ han then (4000, some "Baiman".toList)
  else if 6 ≤ han then (3000, some "Haneman".toList)
  else if 5 ≤ han ∨ (han = 4 ∧ 40 ≤ fu) ∨ (han = 3 ∧ 70 ≤ fu) ∨
      2000 ≤ base_points then (2000, some "Mangan".toList)
  else (base_points, none)

/-- The source's `estimate_points` (raises become `none`). -/
def estimate_points (han fu : Nat) (is_dealer : Bool)
    (win_type : List Char) : Option PointsResult :=
  if han < 1 then none
  else if fu < 20 then none
  else if ¬(win_type = ronStr ∨ win_type = tsumoStr ∨ win_type = bothStr) then none
  else
    let base_calc := fu * 2 ^ (han + 2)
    let bl := _limit_base_points han fu base_calc
    let base := bl.1
    let ron_points : Option Nat :=
      if win_type = ronStr ∨ win_type = bothStr then
        some (_ceil_to_100 (base * (if is_dealer then 6 else 4))) else none
    let tsumo_dealer : Option Nat :=
      if win_type = tsumoStr ∨ win_type = bothStr then
        some (_ceil_to_100 (base * 2)) else none
    let tsumo_non : Option Nat :=
      if win_type = tsumoStr ∨ win_type = bothStr then
        (if is_dealer then none else some (_ceil_to_100 (base * 1))) else none
    some ⟨han, fu, bl.2, is_dealer, ron_points, tsumo_non, tsumo_dealer⟩

/-! ## Scoring (`scoring.py`): melds, decompositions, fu -/

inductive MeldKind where
  | chi : MeldKind
  | pon : MeldKind
  | kan : MeldKind
deriving DecidableEq, Repr

/-- The source's `Meld` dataclass (`open` is `isOpen` here). -/
structure Meld where
  kind : MeldKind
  isOpen : Bool
  tiles : Nat × Nat × Nat
deriving DecidableEq, Repr

/-- The source's `Decomposition`: a pair index and the melds (a 4-tuple in
the source, a list here). -/
structure Decomposition where
  pair : Nat
  melds : List Meld
deriving DecidableEq, Repr

def _is_terminal_or_honor_idx (idx : Nat) : Bool :=
  decide (idx ∈ TERMINAL_HONOR_INDICES)

/-- Membership of the winning tile in a meld's tile triple. -/
def inTiles (w : Nat) (ts : Nat × Nat × Nat) : Bool :=
  decide (w = ts.1 ∨ w = ts.2.1 ∨ w = ts.2.2)

/-- The body of the source's `_wait_fu` loop for the first meld that
contains the winning tile. -/
def waitFuOfMeld (m : Meld) (win_idx : Nat) : Nat :=
  if m.kind = MeldKind.pon ∨ m.kind = MeldKind.kan then 0
  else
    let a := m.tiles.1
    let b := m.tiles.2.1
    let c := m.tiles.2.2
    if win_idx = c ∧ a % 9 = 0 ∧ b % 9 = 1 ∧ c % 9 = 2 then 2
    else if win_idx = a ∧ a % 9 = 6 ∧ b % 9 = 7 ∧ c % 9 = 8 then 2
    else if win_idx = b then 2
    else 0

def waitFuLoop (melds : List Meld) (win_idx : Nat) : Nat :=
  match melds with
  | [] => 0
  | m :: rest =>
    if inTiles win_idx m.tiles then waitFuOfMeld m win_idx
    else waitFuLoop rest win_idx

/-- The source's `_wait_fu`: 2 for tanki/edge/closed waits, else 0. -/
def _wait_fu (decomp : Decomposition) (win_idx : Nat) : Nat :=
  if decomp.pair = win_idx then 2
  else waitFuLoop decomp.melds win_idx

/-- One meld's contribution in the source's `_meld_fu` (`chi` adds 0). -/
def meldFuOne (m : Meld) : Nat :=
  match m.kind with
  | MeldKind.chi => 0
  | MeldKind.pon =>
    if m.isOpen then (if _is_terminal_or_honor_idx m.tiles.1 then 4 else 2)
    else (if _is_terminal_or_honor_idx m.tiles.1 then 8 else 4)
  | MeldKind.kan =>
    if m.isOpen then (if _is_terminal_or_honor_idx m.tiles.1 then 16 else 8)
    else (if _is_terminal_or_honor_idx m.tiles.1 then 32 else 16)

def _meld_fu (decomp : Decomposition) : Nat :=
  (decomp.melds.map meldFuOne).sum

/-- The source's `_pair_fu`.  The source goes through `index_to_tile`,
which raises outside 0..33; scoring only ever passes decomposition pair
indices, all below 34, so the plain table lookup is the reached behaviour. -/
def _pair_fu (pair_idx : Nat) (seat_wind round_wind : List Char) : Nat :=
  let t := TILES.getD pair_idx []
  if t = ['P'] ∨ t = ['F'] ∨ t = ['C'] then 2
  else if t = seat_wind then 2
  else if t = round_wind then 2
  else 0

/-- The source's `_fu_standard`. -/
def _fu_standard (decomp : Decomposition) (win_type : List Char)
    (win_idx : Nat) (seat_wind round_wind : List Char)
    (is_pinfu is_closed : Bool) : Nat :=
  if is_pinfu = true ∧ win_type = tsumoStr then 20
  else
    let fu0 : Nat := 20
    let fu1 := if win_type = ronStr then (if is_closed then fu0 + 10 else fu0)
      else fu0 + 2
    let fu2 := fu1 + _pair_fu decomp.pair seat_wind round_wind
      + _meld_fu decomp + _wait_fu decomp win_idx
    let fu3 := if is_pinfu then
        (if win_type = ronStr ∧ is_closed = true then 30 else 20) else fu2
    let fu4 := ((fu3 + 9) / 10) * 10
    max fu4 30

/-- The fu the seven-pairs branch of `score_points_from_config` reports
(`fu = 25` on the chiitoitsu path). -/
def chiitoitsuBranchFu : Nat := 25

/-- The recursion of `_decompose_standard_all`: at the first non-zero slot
branch on a concealed triplet and on a consecutive sequence, emitting a
decomposition when the vector is exhausted by exactly four melds. -/
def decomposeRec (pair_idx : Nat) (melds : List Meld) (c : List Nat) :
    List Decomposition :=
  match hz : firstNZ c with
  | none => if melds.length = 4 then [⟨pair_idx, melds⟩] else []
  | some i =>
    if 4 < melds.length then []
    else
      (if 3 ≤ c.getD i 0 then
        decomposeRec pair_idx (melds ++ [⟨MeldKind.pon, false, (i, i, i)⟩])
          (c.set i (c.getD i 0 - 3))
      else []) ++
      (if i ≤ 26 ∧ i % 9 ≤ 6 ∧ 0 < c.getD (i + 1) 0 ∧ 0 < c.getD (i + 2) 0 then
        decomposeRec pair_idx (melds ++ [⟨MeldKind.chi, false, (i, i + 1, i + 2)⟩])
          (dec1 (dec1 (dec1 c i) (i + 1)) (i + 2))
      else [])
termination_by c.sum
decreasing_by
  · exact sum_setsub_lt c i 3 (by omega) (firstNZ_some_pos c i hz)
  · calc (dec1 (dec1 (dec1 c i) (i + 1)) (i + 2)).sum
        ≤ (dec1 (dec1 c i) (i + 1)).sum := sum_dec1_le _ _
      _ ≤ (dec1 c i).sum := sum_dec1_le _ _
      _ < c.sum := sum_dec1_lt c i (firstNZ_some_pos c i hz)

/-- Ordering of meld kinds as Python orders the signature strings
(`"chi" < "kan" < "pon"`). -/
def kindOrd (k : MeldKind) : Nat :=
  match k with
  | MeldKind.chi => 0
  | MeldKind.kan => 1
  | MeldKind.pon => 2

def MeldSig : Type := MeldKind × (Nat × Nat × Nat)

instance : DecidableEq MeldSig := by
  unfold MeldSig
  infer_instance

/-- Signature comparison `(kind, tiles)` as Python's tuple order. -/
def sigLe (x y : MeldSig) : Bool :=
  decide (kindOrd x.1 < kindOrd y.1) ||
    (decide (kindOrd x.1 = kindOrd y.1) &&
      (decide (x.2.1 < y.2.1) || (decide (x.2.1 = y.2.1) &&
        (decide (x.2.2.1 < y.2.2.1) || (decide (x.2.2.1 = y.2.2.1) &&
          decide (x.2.2.2 ≤ y.2.2.2))))))

def insertSig (x : MeldSig) (l : List MeldSig) : List MeldSig :=
  match l with
  | [] => [x]
  | y :: rest => if sigLe x y then x :: y :: rest else y :: insertSig x rest

def sortSig (l : List MeldSig) : List MeldSig := l.foldr insertSig []

def DecompKey : Type := Nat × List MeldSig

instance : DecidableEq DecompKey := by
  unfold DecompKey
  infer_instance

/-- One decomposition's de-duplication key. -/
def dkey (d : Decomposition) : DecompKey :=
  (d.pair, sortSig (d.melds.map fun m => (m.kind, m.tiles)))

/-- Python dict insertion: replace the value under an existing key, else
append the pair. -/
def dictUpsert (m : List (DecompKey × Decomposition)) (k : DecompKey)
    (d : Decomposition) : List (DecompKey × Decomposition) :=
  if m.any (fun p => decide (p.1 = k)) then
    m.map (fun p => if p.1 = k then (k, d) else p)
  else m ++ [(k, d)]

/-- The de-duplication pass of `_decompose_standard_all`. -/
def dedupDecomps (l : List Decomposition) : List Decomposition :=
  (l.foldl (fun m d => dictUpsert m (dkey d) d) []).map (fun p => p.2)

/-- The source's `_decompose_standard_all` (the 14-tile check raises:
`none`).  The per-pair honour filter is the inline
`any(counts[i] % 3 != 0 for i in range(27, 34))`, i.e. `_honors_ok`. -/
def _decompose_standard_all (counts14 : List Nat) : Option (List Decomposition) :=
  if counts14.sum ≠ 14 then none
  else if ¬(is_agari_standard counts14 = true) then some []
  else
    let decomps := (List.range 34).foldr
      (fun pair_idx acc =>
        (if 2 ≤ counts14.getD pair_idx 0 then
          let counts := counts14.set pair_idx (counts14.getD pair_idx 0 - 2)
          if _honors_ok counts then decomposeRec pair_idx [] counts else []
        else []) ++ acc) []
    some (dedupDecomps decomps)

/-! ## Computable (fuel-indexed) twins of the well-founded recursions
above, proved extensionally equal below; they let concrete instances be
checked by evaluation. -/

/-- Fuel-indexed twin of `_suit_meldable` (agrees whenever the fuel is at
least the vector's sum). -/
def suitMeldableF (fuel : Nat) (counts9 : List Nat) : Bool :=
  match firstNZ counts9 with
  | none => true
  | some i =>
    match fuel with
    | 0 => false
    | fuel' + 1 =>
      (if 3 ≤ counts9.getD i 0 then
        suitMeldableF fuel' (counts9.set i (counts9.getD i 0 - 3)) else false) ||
      (if i ≤ 6 ∧ 0 < counts9.getD (i + 1) 0 ∧ 0 < counts9.getD (i + 2) 0 then
        suitMeldableF fuel' (dec1 (dec1 (dec1 counts9 i) (i + 1)) (i + 2))
      else false)

/-- `_suits_ok` through the fuel-indexed suit test. -/
def suitsOkF (counts : List Nat) : Bool :=
  suitMeldableF (counts.take 9).sum (counts.take 9) &&
  suitMeldableF ((counts.drop 9).take 9).sum ((counts.drop 9).take 9) &&
  suitMeldableF ((counts.drop 18).take 9).sum ((counts.drop 18).take 9)

/-- `is_agari_standard` through the fuel-indexed suit test. -/
def isAgariStandardF (counts14 : List Nat) : Bool :=
  if counts14.sum ≠ 14 then false
  else
    (List.range 34).any fun pair_idx =>
      if 2 ≤ counts14.getD pair_idx 0 then
        let counts := counts14.set pair_idx (counts14.getD pair_idx 0 - 2)
        _honors_ok counts && suitsOkF counts
      else false

/-- Fuel-indexed twin of `decomposeRec`. -/
def decomposeRecF (fuel : Nat) (pair_idx : Nat) (melds : List Meld)
    (c : List Nat) : List Decomposition :=
  match firstNZ c with
  | none => if melds.length = 4 then [⟨pair_idx, melds⟩] else []
  | some i =>
    match fuel with
    | 0 => []
    | fuel' + 1 =>
      if 4 < melds.length then []
      else
        (if 3 ≤ c.getD i 0 then
          decomposeRecF fuel' pair_idx (melds ++ [⟨MeldKind.pon, false, (i, i, i)⟩])
            (c.set i (c.getD i 0 - 3))
        else []) ++
        (if i ≤ 26 ∧ i % 9 ≤ 6 ∧ 0 < c.getD (i + 1) 0 ∧ 0 < c.getD (i + 2) 0 then
          decomposeRecF fuel' pair_idx (melds ++ [⟨MeldKind.chi, false, (i, i + 1, i + 2)⟩])
            (dec1 (dec1 (dec1 c i) (i + 1)) (i + 2))
        else [])

/-! ## Tile accounting for decompositions -/

/-- How many copies of tile `j` a meld tile triple holds. -/
def tripleCount (ts : Nat × Nat × Nat) (j : Nat) : Nat :=
  (if ts.1 = j then 1 else 0) + (if ts.2.1 = j then 1 else 0) +
    (if ts.2.2 = j then 1 else 0)

/-- How many copies of tile `j` a meld list holds. -/
def meldsCount (ms : List Meld) (j : Nat) : Nat :=
  (ms.map (fun m => tripleCount m.tiles j)).sum

/-- How many copies of tile `j` a whole decomposition holds (pair counted
twice). -/
def decompCount (d : Decomposition) (j : Nat) : Nat :=
  (if d.pair = j then 2 else 0) + meldsCount d.melds j

/-! ## Token shape from the spec's input grammar (for the parser claims):
a tile token is a digit followed by `m`/`p`/`s`, or one honour letter. -/

def wellFormedTok (t : List Char) : Bool :=
  match t with
  | [d, s] => d.isDigit && decide (s = 'm' ∨ s = 'p' ∨ s = 's')
  | [h] => decide (h ∈ ['E', 'S', 'W', 'N', 'P', 'F', 'C'])
  | _ => false

/-! ## Declarative model of the standard-shanten search

A `Block` is one extractable shape of the `dfs` search: a triplet, a
consecutive sequence (`run`), the pair head (`pairH`), or one of the three
taatsu shapes (`ta2` a pair kept as taatsu, `taA` two adjacent suited
tiles, `taG` two suited tiles one apart).  A list of blocks `Fits` a count
vector when their tile demands are jointly available; `dfs` is proved to
compute exactly the best shanten value over fitting block lists. -/

inductive Block where
  | tri : Nat → Block
  | run : Nat → Block
  | pairH : Nat → Block
  | ta2 : Nat → Block
  | taA : Nat → Block
  | taG : Nat → Block
deriving DecidableEq, Repr

/-- How many copies of tile `j` the block consumes. -/
def Block.uses : Block → Nat → Nat
  | Block.tri i, j => if j = i then 3 else 0
  | Block.run i, j => (if j = i then 1 else 0) + (if j = i + 1 then 1 else 0) +
      (if j = i + 2 then 1 else 0)
  | Block.pairH i, j => if j = i then 2 else 0
  | Block.ta2 i, j => if j = i then 2 else 0
  | Block.taA i, j => (if j = i then 1 else 0) + (if j = i + 1 then 1 else 0)
  | Block.taG i, j => (if j = i then 1 else 0) + (if j = i + 2 then 1 else 0)

/-- Structural validity, matching the `dfs` branch guards. -/
def Block.ok : Block → Prop
  | Block.tri i => i < 34
  | Block.run i => i < 27 ∧ i % 9 ≤ 6
  | Block.pairH i => i < 34
  | Block.ta2 i => i < 34
  | Block.taA i => i < 27 ∧ i % 9 ≤ 7
  | Block.taG i => i < 27 ∧ i % 9 ≤ 6

def Block.isMeld : Block → Bool
  | Block.tri _ => true
  | Block.run _ => true
  | _ => false

def Block.isTaatsu : Block → Bool
  | Block.ta2 _ => true
  | Block.taA _ => true
  | Block.taG _ => true
  | _ => false

def Block.isPairH : Block → Bool
  | Block.pairH _ => true
  | _ => false

/-- The slot a block starts at (its least used index). -/
def Block.base : Block → Nat
  | Block.tri i => i
  | Block.run i => i
  | Block.pairH i => i
  | Block.ta2 i => i
  | Block.taA i => i
  | Block.taG i => i

/-- Joint tile demand of a block list at slot `j`. -/
def uses (B : List Block) (j : Nat) : Nat := (B.map (fun b => b.uses j)).sum

def mcount (B : List Block) : Nat := B.countP Block.isMeld

def tcount (B : List Block) : Nat := B.countP Block.isTaatsu

def pcount (B : List Block) : Nat := B.countP Block.isPairH

/-- The block list can be carved out of the count vector. -/
def Fits (B : List Block) (c : List Nat) : Prop :=
  ∀ j : Nat, uses B j ≤ c.getD j 0

def OkB (B : List Block) : Prop := ∀ b ∈ B, b.ok

end Mahjong

namespace Mahjong

theorem getD_mem (c : List Nat) (i : Nat) (h : i < c.length) : c.getD i 0 ∈ c := by
  induction c generalizing i with
  | nil => simp at h
  | cons a c ih =>
    cases i with
    | zero => simp
    | succ i => exact List.mem_cons_of_mem _ (ih i (by simpa using h))

theorem sum_eq_twice_halves_add_odds (c : List Nat) :
    c.sum = 2 * (c.map (fun x => x / 2)).sum + c.countP (fun x => decide (x % 2 = 1)) := by
  induction c with
  | nil => simp
  | cons a c ih =>
    simp only [List.sum_cons, List.map_cons, List.countP_cons, ih]
    rcases Nat.even_or_odd a with h | h
    · obtain ⟨k, rfl⟩ := h
      have : ¬((k + k) % 2 = 1) := by omega
      simp [this]
      omega
    · obtain ⟨k, rfl⟩ := h
      have : (2 * k + 1) % 2 = 1 := by omega
      simp [this]
      omega

theorem mapdiv_eq_countP (c : List Nat) (h : ∀ x ∈ c, x = 0 ∨ x = 2) :
    (c.map (fun x => x / 2)).sum = c.countP (fun x => decide (0 < x)) := by
  induction c with
  | nil => simp
  | cons a c ih =>
    have ha := h a (by simp)
    have hrest : ∀ x ∈ c, x = 0 ∨ x = 2 := fun x hx => h x (by simp [hx])
    rcases ha with rfl | rfl <;> simp [List.countP_cons, ih hrest] <;> omega

/-- C1: `is_agari_chiitoitsu` accepts `[4,4,4,2,0,...]`, which is not seven
distinct pairs. -/
theorem C1_counterexample :
    is_agari_chiitoitsu ([4, 4, 4, 2] ++ List.replicate 30 0) = true ∧
    ¬(([4, 4, 4, 2] ++ List.replicate 30 0).countP (fun x => decide (x = 2)) = 7 ∧
      ∀ x ∈ ([4, 4, 4, 2] ++ List.replicate 30 0), x = 0 ∨ x = 2) := by
  decide

/-- C1 (amended): `is_agari_chiitoitsu` returns true iff the vector totals
14 and every entry is even. -/
theorem C1_chiitoitsu_agari_iff (c : List Nat) :
    is_agari_chiitoitsu c = true ↔ (c.sum = 14 ∧ ∀ x ∈ c, x % 2 = 0) := by
  have key := sum_eq_twice_halves_add_odds c
  constructor
  · intro h
    simp only [is_agari_chiitoitsu, Bool.and_eq_true, decide_eq_true_eq] at h
    obtain ⟨h14, h7⟩ := h
    refine ⟨h14, ?_⟩
    have hz : c.countP (fun x => decide (x % 2 = 1)) = 0 := by omega
    rw [List.countP_eq_zero] at hz
    intro x hx
    have := hz x hx
    simp only [decide_eq_true_eq] at this
    omega
  · rintro ⟨h14, heven⟩
    simp only [is_agari_chiitoitsu, Bool.and_eq_true, decide_eq_true_eq]
    refine ⟨h14, ?_⟩
    have hz : c.countP (fun x => decide (x % 2 = 1)) = 0 := by
      rw [List.countP_eq_zero]
      intro x hx
      have := heven x hx
      simp only [decide_eq_true_eq]
      omega
    omega

/-- C2: after removing a tile from the quad-containing accepted vector
`[4,4,4,2,0,...]`, the seven-pairs shanten is 3, not 0. -/
theorem C2_counterexample :
    is_agari_chiitoitsu ([4, 4, 4, 2] ++ List.replicate 30 0) = true ∧
    0 < ([4, 4, 4, 2] ++ List.replicate 30 0).getD 0 0 ∧
    shanten_chiitoitsu (dec1 ([4, 4, 4, 2] ++ List.replicate 30 0) 0) ≠ 0 := by
  decide

/-- C2 (amended): on a genuine seven-distinct-pairs vector (entries at
most 2), removing any present tile leaves seven-pairs shanten 0. -/
theorem C2_seven_pairs_tenpai (c : List Nat) (t : Nat)
    (h1 : is_agari_chiitoitsu c = true) (h2 : ∀ x ∈ c, x ≤ 2)
    (ht : 0 < c.getD t 0) : shanten_chiitoitsu (dec1 c t) = 0 := by
  simp only [is_agari_chiitoitsu, Bool.and_eq_true, decide_eq_true_eq] at h1
  obtain ⟨h14, h7⟩ := h1
  have heven : ∀ x ∈ c, x % 2 = 0 := by
    have := (C1_chiitoitsu_agari_iff c).mp (by
      simp only [is_agari_chiitoitsu, Bool.and_eq_true, decide_eq_true_eq]
      exact ⟨h14, h7⟩)
    exact this.2
  have hshape : ∀ x ∈ c, x = 0 ∨ x = 2 := by
    intro x hx
    have := h2 x hx
    have := heven x hx
    omega
  have hlen : t < c.length := lt_length_of_getD_pos c t ht
  have hget : c.getD t 0 = 2 := by
    have := hshape (c.getD t 0) (getD_mem c t hlen)
    omega
  -- the pairs sum after removal
  have hmap : (dec1 c t).map (fun x => x / 2) =
      (c.map (fun x => x / 2)).set t 0 := by
    rw [dec1, map_set, hget]
  have hmlen : t < (c.map (fun x => x / 2)).length := by simpa using hlen
  have hmget : (c.map (fun x => x / 2)).getD t 0 = 1 := by
    rw [getD_map c t _ hlen, hget]
  have hpairs : ((dec1 c t).map (fun x => x / 2)).sum = 6 := by
    have := sum_set_add (c.map (fun x => x / 2)) t 0 hmlen
    rw [hmap]
    omega
  -- the distinct-slot count after removal
  have hcount : c.countP (fun x => decide (0 < x)) = 7 := by
    rw [← mapdiv_eq_countP c hshape]
    exact h7
  have hcount' : (dec1 c t).countP (fun x => decide (0 < x)) = 7 := by
    have hstep := countP_set c t 1 (fun x => decide (0 < x)) hlen
    rw [hget] at hstep
    norm_num at hstep
    rw [dec1, hget]
    have h21 : (2 : Nat) - 1 = 1 := rfl
    rw [h21]
    omega
  have hval : shanten_chiitoitsu (dec1 c t) =
      6 - ((min (((dec1 c t).map (fun x => x / 2)).sum) 7 : Nat) : Int) +
        ((7 - (dec1 c t).countP (fun x => decide (0 < x)) : Nat) : Int) := rfl
  rw [hval, hpairs, hcount']
  norm_num

end Mahjong

namespace Mahjong

/-- C9: the tile codec maps are mutually inverse: indices 0..33 round-trip
through `index_to_tile` then `tile_to_index`, and every canonical token
round-trips the other way. -/
theorem C9_tile_index_roundtrip :
    (∀ idx, idx < 34 → (index_to_tile idx).bind tile_to_index = some idx) ∧
    (∀ tok ∈ TILES, (tile_to_index tok).bind index_to_tile = some tok) := by
  decide

theorem ceil100_mod (x : Nat) : _ceil_to_100 x % 100 = 0 := by
  unfold _ceil_to_100
  omega

/-- Divisibility of every payout field of a `PointsResult`. -/
def PayoutsDiv100 (r : PointsResult) : Prop :=
  (∀ v, r.ron_points = some v → v % 100 = 0) ∧
  (∀ v, r.tsumo_dealer_points = some v → v % 100 = 0) ∧
  (∀ v, r.tsumo_non_dealer_points = some v → v % 100 = 0)

/-- C6: every payout the points calculators report is divisible by 100,
for normal and yakuman hands alike. -/
theorem C6_payouts_div_100 (han fu mult : Nat) (is_dealer : Bool)
    (win_type : List Char) :
    (∀ r, estimate_points han fu is_dealer win_type = some r → PayoutsDiv100 r) ∧
    (∀ r, estimate_yakuman_points mult is_dealer win_type = some r →
      PayoutsDiv100 r) := by
  constructor
  · intro r hr
    unfold estimate_points at hr
    split_ifs at hr
    all_goals
      obtain rfl : _ = r := Option.some.inj hr
    all_goals
      refine ⟨?_, ?_, ?_⟩ <;> intro v hv <;>
        first
          | (obtain rfl : _ = v := Option.some.inj hv; exact ceil100_mod _)
          | cases hv
  · intro r hr
    unfold estimate_yakuman_points at hr
    split_ifs at hr
    all_goals
      obtain rfl : _ = r := Option.some.inj hr
    all_goals
      refine ⟨?_, ?_, ?_⟩ <;> intro v hv <;>
        first
          | (obtain rfl : _ = v := Option.some.inj hv; exact ceil100_mod _)
          | cases hv

/-- C5: standard-branch fu is a multiple of 10 and at least 30, except that
pinfu won by tsumo is exactly 20 and pinfu won by ron on a closed hand is
exactly 30; the seven-pairs branch reports fu 25. -/
theorem C5_fu_properties (decomp : Decomposition) (win_type : List Char)
    (win_idx : Nat) (seat_wind round_wind : List Char)
    (is_pinfu is_closed : Bool) :
    (¬(is_pinfu = true ∧ win_type = tsumoStr) →
      _fu_standard decomp win_type win_idx seat_wind round_wind is_pinfu is_closed % 10 = 0 ∧
      30 ≤ _fu_standard decomp win_type win_idx seat_wind round_wind is_pinfu is_closed) ∧
    (is_pinfu = true ∧ win_type = tsumoStr →
      _fu_standard decomp win_type win_idx seat_wind round_wind is_pinfu is_closed = 20) ∧
    (is_pinfu = true ∧ win_type = ronStr ∧ is_closed = true →
      _fu_standard decomp win_type win_idx seat_wind round_wind is_pinfu is_closed = 30) ∧
    chiitoitsuBranchFu = 25 := by
  have main : ∀ x : Nat, (max (((x + 9) / 10) * 10) 30) % 10 = 0 ∧
      30 ≤ max (((x + 9) / 10) * 10) 30 := by
    intro x
    constructor <;> omega
  by_cases hpt : is_pinfu = true ∧ win_type = tsumoStr
  · rw [_fu_standard, if_pos hpt]
    refine ⟨fun h => absurd hpt h, fun _ => rfl, ?_, rfl⟩
    rintro ⟨_, hr, _⟩
    exact absurd (hr ▸ hpt.2) (by decide)
  · rw [_fu_standard, if_neg hpt]
    refine ⟨fun _ => main _, fun h => absurd h hpt, ?_, rfl⟩
    rintro ⟨hp, hr, hc⟩
    subst hp
    subst hc
    rw [hr]
    norm_num

end Mahjong

namespace Mahjong

/-- C8: `parse_tiles` itself does not validate: a malformed token passes
through unchanged and no error is raised. -/
theorem C8_counterexample :
    parse_tiles ['x', 'y'] = some [['x', 'y']] ∧
    wellFormedTok ['x', 'y'] = false := by
  decide

theorem lookup_mem_keys {α β : Type} [BEq α] [LawfulBEq α]
    (l : List (α × β)) (k : α) (v : β) (h : l.lookup k = some v) :
    k ∈ l.map Prod.fst := by
  induction l with
  | nil => simp [List.lookup] at h
  | cons p l ih =>
    rw [List.lookup] at h
    by_cases hk : (k == p.1) = true
    · simp only [List.map_cons]
      exact (eq_of_beq hk) ▸ List.mem_cons_self _ _
    · have hkf : (k == p.1) = false := by simpa using hk
      simp only [hkf] at h
      exact List.mem_cons_of_mem _ (ih h)

theorem tiles_wellformed : ∀ t ∈ TILES, wellFormedTok t = true := by
  decide

theorem tile_index_keys : TILE_INDICES.map Prod.fst = TILES := by
  decide

/-- C8 (amended): the malformed-tile rejection lives in `tile_to_index`
(hence in `tiles_to_counts`, the counts-building pipeline), not in
`parse_tiles`: any token that is neither digit-plus-suit nor an honour
letter is refused there. -/
theorem C8_malformed_rejected :
    (∀ tok : List Char, wellFormedTok (stripChars tok) = false →
      tile_to_index tok = none) ∧
    (∀ toks : List (List Char), (∃ tok ∈ toks, tile_to_index tok = none) →
      tiles_to_counts toks = none) := by
  constructor
  · intro tok hwf
    cases h : tile_to_index tok with
    | none => rfl
    | some v =>
      exfalso
      rw [tile_to_index] at h
      cases hn : normalize_tile tok with
      | none =>
        rw [hn] at h
        exact Option.noConfusion h
      | some t' =>
        rw [hn] at h
        have hlk : TILE_INDICES.lookup t' = some v := h
        have ht' : t' ∈ TILES := by
          have := lookup_mem_keys TILE_INDICES t' v hlk
          rwa [tile_index_keys] at this
        rw [normalize_tile] at hn
        by_cases he : stripChars tok = []
        · rw [if_pos he] at hn
          exact Option.noConfusion hn
        · rw [if_neg he] at hn
          by_cases hred : (stripChars tok).length = 2 ∧
              (stripChars tok).getD 0 ' ' = '0' ∧
              ((stripChars tok).getD 1 ' ' = 'm' ∨
               (stripChars tok).getD 1 ' ' = 'p' ∨
               (stripChars tok).getD 1 ' ' = 's')
          · obtain ⟨hl2, h0, hs⟩ := hred
            obtain ⟨a, b, hab⟩ := List.length_eq_two.mp hl2
            rw [hab] at h0 hs
            simp only [List.getD_cons_zero, List.getD_cons_succ] at h0 hs
            rw [hab, wellFormedTok] at hwf
            subst h0
            rcases hs with rfl | rfl | rfl <;> simp at hwf
          · rw [if_neg hred] at hn
            obtain rfl : stripChars tok = t' := Option.some.inj hn
            rw [tiles_wellformed _ ht'] at hwf
            exact Bool.noConfusion hwf
  · intro toks hex
    obtain ⟨tok, htok, hnone⟩ := hex
    rw [tiles_to_counts]
    generalize List.replicate 34 0 = acc
    induction toks generalizing acc with
    | nil => simp at htok
    | cons t rest ih =>
      rw [tilesToCountsGo]
      rcases List.mem_cons.mp htok with rfl | hmem
      · rw [hnone]
      · cases hti : tile_to_index t with
        | none => rfl
        | some i => exact ih hmem _

/-- C10: `shanten_standard` hands the caller's 34-slot, 14-tile counts list
back exactly as it received it: every in-place decrement of the removal
loop is matched by the increment that restores it. -/
theorem C10_shanten_standard_restores (counts : List Nat)
    (h14 : counts.sum = 14) (hlen : counts.length = 34) :
    (shanten_standard_st counts).2 = counts :=
  (shanten_standard_stP counts).property

/-- C10 witness at a concrete seven-pairs 14-vector. -/
theorem C10_witness :
    (shanten_standard_st ([2, 2, 2, 2, 2, 2, 2] ++ List.replicate 27 0)).2 =
      [2, 2, 2, 2, 2, 2, 2] ++ List.replicate 27 0 :=
  C10_shanten_standard_restores ([2, 2, 2, 2, 2, 2, 2] ++ List.replicate 27 0)
    (by decide) (by decide)

end Mahjong

namespace Mahjong

/-! ## Bounds for `foldl min` accumulations -/

theorem foldl_min_le_init (l : List Int) (a : Int) : List.foldl min a l ≤ a := by
  induction l generalizing a with
  | nil => simp
  | cons x l ih => exact le_trans (ih (min a x)) (min_le_left a x)

theorem foldl_min_le_mem (l : List Int) (a x : Int) (h : x ∈ l) :
    List.foldl min a l ≤ x := by
  induction l generalizing a with
  | nil => simp at h
  | cons y l ih =>
    rw [List.foldl_cons]
    rcases List.mem_cons.mp h with rfl | h
    · exact le_trans (foldl_min_le_init l (min a x)) (min_le_right a x)
    · exact ih (min a y) h

theorem le_foldl_min (l : List Int) (a L : Int) (ha : L ≤ a)
    (h : ∀ x ∈ l, L ≤ x) : L ≤ List.foldl min a l := by
  induction l generalizing a with
  | nil => simpa using ha
  | cons y l ih =>
    rw [List.foldl_cons]
    exact ih (min a y) (le_min ha (h y (by simp))) (fun x hx => h x (by simp [hx]))

theorem mem_ite_single {g : Prop} [Decidable g] (x y : Int)
    (h : x ∈ (if g then [y] else [])) : g ∧ x = y := by
  by_cases hg : g
  · rw [if_pos hg] at h
    exact ⟨hg, by simpa using h⟩
  · rw [if_neg hg] at h
    simp at h

/-! ## Access lemmas for the `dfs` branches -/

theorem dfs_le_val (c : List Nat) (m t p : Nat) (hm : ¬ 4 < m) :
    dfs c m t p ≤ val m t p := by
  rw [dfs, if_neg hm]
  split
  · exact le_refl _
  · exact le_trans (foldl_min_le_init _ _) (min_le_left _ _)

theorem dfs_le_skip (c : List Nat) (m t p i : Nat) (hm : ¬ 4 < m)
    (hz : firstNZ c = some i) : dfs c m t p ≤ dfs (dec1 c i) m t p := by
  rw [dfs, if_neg hm]
  split
  · rename_i heq
    rw [hz] at heq
    exact Option.noConfusion heq
  · rename_i i' heq
    rw [hz] at heq
    obtain rfl : i = i' := by injection heq
    exact le_trans (foldl_min_le_init _ _) (min_le_right _ _)

theorem dfs_le_tri (c : List Nat) (m t p i : Nat) (hm : ¬ 4 < m)
    (hz : firstNZ c = some i) (h3 : 3 ≤ c.getD i 0) :
    dfs c m t p ≤ dfs (c.set i (c.getD i 0 - 3)) (m + 1) t p := by
  rw [dfs, if_neg hm]
  split
  · rename_i heq
    rw [hz] at heq
    exact Option.noConfusion heq
  · rename_i i' heq
    rw [hz] at heq
    obtain rfl : i = i' := by injection heq
    refine foldl_min_le_mem _ _ _ ?_
    rw [if_pos h3]
    simp

theorem dfs_le_run (c : List Nat) (m t p i : Nat) (hm : ¬ 4 < m)
    (hz : firstNZ c = some i)
    (hg : i ≤ 26 ∧ i % 9 ≤ 6 ∧ 0 < c.getD (i + 1) 0 ∧ 0 < c.getD (i + 2) 0) :
    dfs c m t p ≤ dfs (dec1 (dec1 (dec1 c i) (i + 1)) (i + 2)) (m + 1) t p := by
  rw [dfs, if_neg hm]
  split
  · rename_i heq
    rw [hz] at heq
    exact Option.noConfusion heq
  · rename_i i' heq
    rw [hz] at heq
    obtain rfl : i = i' := by injection heq
    refine foldl_min_le_mem _ _ _ ?_
    rw [if_pos hg]
    simp

theorem dfs_le_head (c : List Nat) (m t p i : Nat) (hm : ¬ 4 < m)
    (hz : firstNZ c = some i) (hp : p = 0) (h2 : 2 ≤ c.getD i 0) :
    dfs c m t p ≤ dfs (c.set i (c.getD i 0 - 2)) m t 1 := by
  rw [dfs, if_neg hm]
  split
  · rename_i heq
    rw [hz] at heq
    exact Option.noConfusion heq
  · rename_i i' heq
    rw [hz] at heq
    obtain rfl : i = i' := by injection heq
    refine foldl_min_le_mem _ _ _ ?_
    rw [if_pos (And.intro hp h2)]
    simp

theorem dfs_le_ta2 (c : List Nat) (m t p i : Nat) (hm : ¬ 4 < m)
    (hz : firstNZ c = some i) (ht : t < 4) (h2 : 2 ≤ c.getD i 0) :
    dfs c m t p ≤ dfs (c.set i (c.getD i 0 - 2)) m (t + 1) p := by
  rw [dfs, if_neg hm]
  split
  · rename_i heq
    rw [hz] at heq
    exact Option.noConfusion heq
  · rename_i i' heq
    rw [hz] at heq
    obtain rfl : i = i' := by injection heq
    refine foldl_min_le_mem _ _ _ ?_
    rw [if_pos ht, if_pos h2]
    simp

theorem dfs_le_taA (c : List Nat) (m t p i : Nat) (hm : ¬ 4 < m)
    (hz : firstNZ c = some i) (ht : t < 4)
    (hg : i ≤ 26 ∧ i % 9 ≤ 7 ∧ 0 < c.getD (i + 1) 0) :
    dfs c m t p ≤ dfs (dec1 (dec1 c i) (i + 1)) m (t + 1) p := by
  rw [dfs, if_neg hm]
  split
  · rename_i heq
    rw [hz] at heq
    exact Option.noConfusion heq
  · rename_i i' heq
    rw [hz] at heq
    obtain rfl : i = i' := by injection heq
    refine foldl_min_le_mem _ _ _ ?_
    rw [if_pos ht, if_pos hg]
    simp

theorem dfs_le_taG (c : List Nat) (m t p i : Nat) (hm : ¬ 4 < m)
    (hz : firstNZ c = some i) (ht : t < 4)
    (hg : i ≤ 26 ∧ i % 9 ≤ 6 ∧ 0 < c.getD (i + 2) 0) :
    dfs c m t p ≤ dfs (dec1 (dec1 c i) (i + 2)) m (t + 1) p := by
  rw [dfs, if_neg hm]
  split
  · rename_i heq
    rw [hz] at heq
    exact Option.noConfusion heq
  · rename_i i' heq
    rw [hz] at heq
    obtain rfl : i = i' := by injection heq
    refine foldl_min_le_mem _ _ _ ?_
    rw [if_pos ht, if_pos hg]
    simp

/-! ## Block bookkeeping -/

theorem uses_nil (j : Nat) : uses [] j = 0 := rfl

theorem uses_cons (b : Block) (B : List Block) (j : Nat) :
    uses (b :: B) j = b.uses j + uses B j := by
  simp [uses]

theorem uses_perm (B B' : List Block) (h : B.Perm B') (j : Nat) :
    uses B j = uses B' j := by
  unfold uses
  exact (h.map (fun b => b.uses j)).sum_eq

theorem mcount_cons (b : Block) (B : List Block) :
    mcount (b :: B) = (if b.isMeld then 1 else 0) + mcount B := by
  simp [mcount, List.countP_cons]
  split <;> omega

theorem tcount_cons (b : Block) (B : List Block) :
    tcount (b :: B) = (if b.isTaatsu then 1 else 0) + tcount B := by
  simp [tcount, List.countP_cons]
  split <;> omega

theorem pcount_cons (b : Block) (B : List Block) :
    pcount (b :: B) = (if b.isPairH then 1 else 0) + pcount B := by
  simp [pcount, List.countP_cons]
  split <;> omega

theorem mcount_perm (B B' : List Block) (h : B.Perm B') : mcount B = mcount B' :=
  h.countP_eq _

theorem tcount_perm (B B' : List Block) (h : B.Perm B') : tcount B = tcount B' :=
  h.countP_eq _

theorem pcount_perm (B B' : List Block) (h : B.Perm B') : pcount B = pcount B' :=
  h.countP_eq _

theorem uses_pos_base (b : Block) : 0 < b.uses b.base := by
  cases b <;> simp [Block.uses, Block.base]

theorem uses_eq_zero_of_lt_base (b : Block) (j : Nat) (h : j < b.base) :
    b.uses j = 0 := by
  cases b <;> simp only [Block.uses, Block.base] at * <;> split_ifs <;> omega

theorem mem_uses_le (b : Block) (B : List Block) (j : Nat) (h : b ∈ B) :
    b.uses j ≤ uses B j := by
  induction B with
  | nil => simp at h
  | cons x B ih =>
    rw [uses_cons]
    rcases List.mem_cons.mp h with rfl | h
    · omega
    · have := ih h
      omega

theorem fits_base_pos (B : List Block) (c : List Nat) (b : Block)
    (hfit : Fits B c) (hmem : b ∈ B) : 0 < c.getD b.base 0 :=
  lt_of_lt_of_le (lt_of_lt_of_le (uses_pos_base b) (mem_uses_le b B _ hmem))
    (hfit b.base)

theorem fits_nil_of_zero (B : List Block) (c : List Nat)
    (hfit : Fits B c) (hz : ∀ j, c.getD j 0 = 0) : B = [] := by
  cases B with
  | nil => rfl
  | cons b B =>
    exfalso
    have := fits_base_pos (b :: B) c b hfit (by simp)
    rw [hz b.base] at this
    omega

/-- Removing one block of `B` from both the list and the vector keeps the
fit, for any vector whose slots lost exactly (or at least) what the block
used. -/
theorem fits_erase_of_getD (B : List Block) (c c' : List Nat) (b : Block)
    (hfit : Fits B c) (hmem : b ∈ B)
    (h : ∀ j, c'.getD j 0 + b.uses j = c.getD j 0 ∨
              (b.uses j = 0 ∧ c.getD j 0 ≤ c'.getD j 0)) :
    Fits (B.erase b) c' := by
  intro j
  have hperm : B.Perm (b :: B.erase b) := List.perm_cons_erase hmem
  have hu : uses B j = b.uses j + uses (B.erase b) j := by
    rw [uses_perm B (b :: B.erase b) hperm j, uses_cons]
  have hf := hfit j
  rcases h j with h1 | h2 <;> omega

theorem okB_erase (B : List Block) (b : Block) (h : OkB B) : OkB (B.erase b) :=
  fun x hx => h x (List.mem_of_mem_erase hx)

theorem length_dec1 (c : List Nat) (i : Nat) : (dec1 c i).length = c.length := by
  simp [dec1]

theorem getD_dec1_self (c : List Nat) (i : Nat) (h : i < c.length) :
    (dec1 c i).getD i 0 = c.getD i 0 - 1 :=
  getD_set_self c i _ h

theorem getD_dec1_ne (c : List Nat) (i j : Nat) (h : j ≠ i) :
    (dec1 c i).getD j 0 = c.getD j 0 :=
  getD_set_ne c i j _ h

theorem getD_dec1_le (c : List Nat) (i j : Nat) :
    (dec1 c i).getD j 0 ≤ c.getD j 0 := by
  by_cases hj : j = i
  · subst hj
    by_cases hl : j < c.length
    · rw [getD_dec1_self c j hl]
      omega
    · rw [dec1, set_of_length_le c j _ (by omega)]
  · rw [getD_dec1_ne c i j hj]

/-- Slot values after carving a run `i, i+1, i+2` out of the vector. -/
theorem getD_rundec (c : List Nat) (i : Nat) (h0 : 0 < c.getD i 0)
    (h1 : 0 < c.getD (i + 1) 0) (h2 : 0 < c.getD (i + 2) 0) (j : Nat) :
    (dec1 (dec1 (dec1 c i) (i + 1)) (i + 2)).getD j 0 =
      c.getD j 0 - ((if j = i then 1 else 0) + (if j = i + 1 then 1 else 0) +
        (if j = i + 2 then 1 else 0)) := by
  have l0 : i < c.length := lt_length_of_getD_pos c i h0
  have l1 : i + 1 < c.length := lt_length_of_getD_pos c (i + 1) h1
  have l2 : i + 2 < c.length := lt_length_of_getD_pos c (i + 2) h2
  have l1' : i + 1 < (dec1 c i).length := by rw [length_dec1]; exact l1
  have l2' : i + 2 < (dec1 (dec1 c i) (i + 1)).length := by
    rw [length_dec1, length_dec1]; exact l2
  by_cases hj2 : j = i + 2
  · subst hj2
    rw [getD_dec1_self _ _ l2', getD_dec1_ne _ _ _ (by omega),
      getD_dec1_ne _ _ _ (by omega)]
    split_ifs <;> omega
  · rw [getD_dec1_ne _ _ _ hj2]
    by_cases hj1 : j = i + 1
    · subst hj1
      rw [getD_dec1_self _ _ l1', getD_dec1_ne _ _ _ (by omega)]
      split_ifs <;> omega
    · rw [getD_dec1_ne _ _ _ hj1]
      by_cases hj0 : j = i
      · subst hj0
        rw [getD_dec1_self _ _ l0]
        split_ifs <;> omega
      · rw [getD_dec1_ne _ _ _ hj0]
        split_ifs <;> omega

/-- Slot values after carving two tiles `i, i+d` (`d ≠ 0`) out. -/
theorem getD_twodec (c : List Nat) (i d : Nat) (hd : d ≠ 0)
    (h0 : 0 < c.getD i 0) (h1 : 0 < c.getD (i + d) 0) (j : Nat) :
    (dec1 (dec1 c i) (i + d)).getD j 0 =
      c.getD j 0 - ((if j = i then 1 else 0) + (if j = i + d then 1 else 0)) := by
  have l0 : i < c.length := lt_length_of_getD_pos c i h0
  have l1 : i + d < c.length := lt_length_of_getD_pos c (i + d) h1
  have l1' : i + d < (dec1 c i).length := by rw [length_dec1]; exact l1
  by_cases hjd : j = i + d
  · subst hjd
    rw [getD_dec1_self _ _ l1', getD_dec1_ne _ _ _ (by omega)]
    split_ifs <;> omega
  · rw [getD_dec1_ne _ _ _ hjd]
    by_cases hj0 : j = i
    · subst hj0
      rw [getD_dec1_self _ _ l0]
      split_ifs <;> omega
    · rw [getD_dec1_ne _ _ _ hj0]
      split_ifs <;> omega

/-- Slot values after taking `k` copies at `i`. -/
theorem getD_setsub (c : List Nat) (i k : Nat) (hk : 0 < c.getD i 0) (j : Nat) :
    (c.set i (c.getD i 0 - k)).getD j 0 =
      c.getD j 0 - (if j = i then k else 0) := by
  have l0 : i < c.length := lt_length_of_getD_pos c i hk
  by_cases hj : j = i
  · subst hj
    rw [getD_set_self c j _ l0, if_pos rfl]
  · rw [getD_set_ne c i j _ hj, if_neg hj]
    omega

end Mahjong

namespace Mahjong

/-- Completeness of the search: `dfs` is at most the shanten value of any
fitting block list (relative to the running extraction counters). -/
theorem dfs_le_of_fits (n : Nat) : ∀ (c : List Nat), c.sum ≤ n →
    ∀ (B : List Block) (m t p : Nat), Fits B c → OkB B →
    m + mcount B ≤ 4 → t + tcount B ≤ 4 → p + pcount B ≤ 1 →
    dfs c m t p ≤ val (m + mcount B) (t + tcount B) (p + pcount B) := by
  induction n with
  | zero =>
    intro c hc B m t p hfit hok hm4 ht4 hp4
    have hz : ∀ j, c.getD j 0 = 0 := by
      intro j
      have := getD_le_sum c j
      omega
    obtain rfl : B = [] := fits_nil_of_zero B c hfit hz
    simp only [mcount, tcount, pcount, List.countP_nil, Nat.add_zero]
    exact dfs_le_val c m t p (by omega)
  | succ n ih =>
    intro c hc B m t p hfit hok hm4 ht4 hp4
    have hm : ¬ 4 < m := by omega
    by_cases hB : B = []
    · subst hB
      simp only [mcount, tcount, pcount, List.countP_nil, Nat.add_zero]
      exact dfs_le_val c m t p hm
    obtain ⟨b0, hb0⟩ := List.exists_mem_of_ne_nil B hB
    have hpos0 : 0 < c.getD b0.base 0 := fits_base_pos B c b0 hfit hb0
    obtain ⟨i, hzi⟩ : ∃ i, firstNZ c = some i := by
      cases hfz : firstNZ c with
      | none => exact absurd (firstNZ_none c hfz b0.base) (by omega)
      | some i => exact ⟨i, rfl⟩
    have hilen : i < c.length := firstNZ_lt_length c i hzi
    have hipos : 0 < c.getD i 0 := firstNZ_some_pos c i hzi
    have hbase_ge : ∀ b ∈ B, i ≤ b.base := by
      intro b hb
      by_contra hlt
      have := fits_base_pos B c b hfit hb
      rw [firstNZ_some_min c i hzi b.base (by omega)] at this
      omega
    by_cases hati : ∃ b ∈ B, b.base = i
    · obtain ⟨b, hbB, hbbase⟩ := hati
      have hperm : B.Perm (b :: B.erase b) := List.perm_cons_erase hbB
      have hokb : b.ok := hok b hbB
      have hok' : OkB (B.erase b) := okB_erase B b hok
      have husesb : ∀ j, b.uses j ≤ uses B j := fun j => mem_uses_le b B j hbB
      have husesE : ∀ j, uses B j = b.uses j + uses (B.erase b) j := by
        intro j
        rw [uses_perm B _ hperm j, uses_cons]
      have hmcE : mcount B = (if b.isMeld then 1 else 0) + mcount (B.erase b) := by
        rw [mcount_perm B _ hperm, mcount_cons]
      have htcE : tcount B = (if b.isTaatsu then 1 else 0) + tcount (B.erase b) := by
        rw [tcount_perm B _ hperm, tcount_cons]
      have hpcE : pcount B = (if b.isPairH then 1 else 0) + pcount (B.erase b) := by
        rw [pcount_perm B _ hperm, pcount_cons]
      cases b with
      | tri i0 =>
        obtain rfl : i0 = i := hbbase
        simp [Block.isMeld, Block.isTaatsu, Block.isPairH] at hmcE htcE hpcE
        have h3 : 3 ≤ c.getD i0 0 := by
          have h1 := husesb i0
          have h2 := hfit i0
          simp [Block.uses] at h1
          omega
        have hfit' : Fits (B.erase (Block.tri i0)) (c.set i0 (c.getD i0 0 - 3)) := by
          refine fits_erase_of_getD B c _ _ hfit hbB ?_
          intro j
          left
          rw [getD_setsub c i0 3 hipos j]
          simp only [Block.uses]
          by_cases hj : j = i0
          · subst hj
            split_ifs <;> omega
          · split_ifs <;> omega
        have hsum' : (c.set i0 (c.getD i0 0 - 3)).sum ≤ n := by
          have := sum_setsub_lt c i0 3 (by omega) hipos
          omega
        have rec := ih _ hsum' (B.erase (Block.tri i0)) (m + 1) t p hfit' hok'
          (by omega) (by omega) (by omega)
        have heq : val (m + 1 + mcount (B.erase (Block.tri i0)))
            (t + tcount (B.erase (Block.tri i0)))
            (p + pcount (B.erase (Block.tri i0))) =
            val (m + mcount B) (t + tcount B) (p + pcount B) := by
          rw [show m + 1 + mcount (B.erase (Block.tri i0)) = m + mcount B by omega,
            show t + tcount (B.erase (Block.tri i0)) = t + tcount B by omega,
            show p + pcount (B.erase (Block.tri i0)) = p + pcount B by omega]
        exact le_trans (dfs_le_tri c m t p i0 hm hzi h3) (heq ▸ rec)
      | run i0 =>
        obtain rfl : i0 = i := hbbase
        simp [Block.isMeld, Block.isTaatsu, Block.isPairH] at hmcE htcE hpcE
        obtain ⟨hok27, hok9⟩ : i0 < 27 ∧ i0 % 9 ≤ 6 := hokb
        have hpos1 : 0 < c.getD (i0 + 1) 0 := by
          have h1 := husesb (i0 + 1)
          have h2 := hfit (i0 + 1)
          simp only [Block.uses] at h1
          split_ifs at h1 <;> omega
        have hpos2 : 0 < c.getD (i0 + 2) 0 := by
          have h1 := husesb (i0 + 2)
          have h2 := hfit (i0 + 2)
          simp only [Block.uses] at h1
          split_ifs at h1 <;> omega
        have hfit' : Fits (B.erase (Block.run i0))
            (dec1 (dec1 (dec1 c i0) (i0 + 1)) (i0 + 2)) := by
          refine fits_erase_of_getD B c _ _ hfit hbB ?_
          intro j
          left
          rw [getD_rundec c i0 hipos hpos1 hpos2 j]
          simp only [Block.uses]
          by_cases hj0 : j = i0
          · subst hj0
            split_ifs <;> omega
          by_cases hj1 : j = i0 + 1
          · subst hj1
            split_ifs <;> omega
          by_cases hj2 : j = i0 + 2
          · subst hj2
            split_ifs <;> omega
          · split_ifs <;> omega
        have hsum' : (dec1 (dec1 (dec1 c i0) (i0 + 1)) (i0 + 2)).sum ≤ n := by
          have s1 := sum_dec1_le (dec1 (dec1 c i0) (i0 + 1)) (i0 + 2)
          have s2 := sum_dec1_le (dec1 c i0) (i0 + 1)
          have s3 := sum_dec1_lt c i0 hipos
          omega
        have rec := ih _ hsum' (B.erase (Block.run i0)) (m + 1) t p hfit' hok'
          (by omega) (by omega) (by omega)
        have heq : val (m + 1 + mcount (B.erase (Block.run i0)))
            (t + tcount (B.erase (Block.run i0)))
            (p + pcount (B.erase (Block.run i0))) =
            val (m + mcount B) (t + tcount B) (p + pcount B) := by
          rw [show m + 1 + mcount (B.erase (Block.run i0)) = m + mcount B by omega,
            show t + tcount (B.erase (Block.run i0)) = t + tcount B by omega,
            show p + pcount (B.erase (Block.run i0)) = p + pcount B by omega]
        exact le_trans (dfs_le_run c m t p i0 hm hzi
          ⟨by omega, hok9, hpos1, hpos2⟩) (heq ▸ rec)
      | pairH i0 =>
        obtain rfl : i0 = i := hbbase
        simp [Block.isMeld, Block.isTaatsu, Block.isPairH] at hmcE htcE hpcE
        have h2 : 2 ≤ c.getD i0 0 := by
          have h1 := husesb i0
          have h2 := hfit i0
          simp [Block.uses] at h1
          omega
        have hp0 : p = 0 := by omega
        have hfit' : Fits (B.erase (Block.pairH i0)) (c.set i0 (c.getD i0 0 - 2)) := by
          refine fits_erase_of_getD B c _ _ hfit hbB ?_
          intro j
          left
          rw [getD_setsub c i0 2 hipos j]
          simp only [Block.uses]
          by_cases hj : j = i0
          · subst hj
            split_ifs <;> omega
          · split_ifs <;> omega
        have hsum' : (c.set i0 (c.getD i0 0 - 2)).sum ≤ n := by
          have := sum_setsub_lt c i0 2 (by omega) hipos
          omega
        have rec := ih _ hsum' (B.erase (Block.pairH i0)) m t 1 hfit' hok'
          (by omega) (by omega) (by omega)
        have heq : val (m + mcount (B.erase (Block.pairH i0)))
            (t + tcount (B.erase (Block.pairH i0)))
            (1 + pcount (B.erase (Block.pairH i0))) =
            val (m + mcount B) (t + tcount B) (p + pcount B) := by
          rw [show m + mcount (B.erase (Block.pairH i0)) = m + mcount B by omega,
            show t + tcount (B.erase (Block.pairH i0)) = t + tcount B by omega,
            show 1 + pcount (B.erase (Block.pairH i0)) = p + pcount B by omega]
        exact le_trans (dfs_le_head c m t p i0 hm hzi hp0 h2) (heq ▸ rec)
      | ta2 i0 =>
        obtain rfl : i0 = i := hbbase
        simp [Block.isMeld, Block.isTaatsu, Block.isPairH] at hmcE htcE hpcE
        have h2 : 2 ≤ c.getD i0 0 := by
          have h1 := husesb i0
          have h2 := hfit i0
          simp [Block.uses] at h1
          omega
        have ht : t < 4 := by omega
        have hfit' : Fits (B.erase (Block.ta2 i0)) (c.set i0 (c.getD i0 0 - 2)) := by
          refine fits_erase_of_getD B c _ _ hfit hbB ?_
          intro j
          left
          rw [getD_setsub c i0 2 hipos j]
          simp only [Block.uses]
          by_cases hj : j = i0
          · subst hj
            split_ifs <;> omega
          · split_ifs <;> omega
        have hsum' : (c.set i0 (c.getD i0 0 - 2)).sum ≤ n := by
          have := sum_setsub_lt c i0 2 (by omega) hipos
          omega
        have rec := ih _ hsum' (B.erase (Block.ta2 i0)) m (t + 1) p hfit' hok'
          (by omega) (by omega) (by omega)
        have heq : val (m + mcount (B.erase (Block.ta2 i0)))
            (t + 1 + tcount (B.erase (Block.ta2 i0)))
            (p + pcount (B.erase (Block.ta2 i0))) =
            val (m + mcount B) (t + tcount B) (p + pcount B) := by
          rw [show m + mcount (B.erase (Block.ta2 i0)) = m + mcount B by omega,
            show t + 1 + tcount (B.erase (Block.ta2 i0)) = t + tcount B by omega,
            show p + pcount (B.erase (Block.ta2 i0)) = p + pcount B by omega]
        exact le_trans (dfs_le_ta2 c m t p i0 hm hzi ht h2) (heq ▸ rec)
      | taA i0 =>
        obtain rfl : i0 = i := hbbase
        simp [Block.isMeld, Block.isTaatsu, Block.isPairH] at hmcE htcE hpcE
        obtain ⟨hok27, hok9⟩ : i0 < 27 ∧ i0 % 9 ≤ 7 := hokb
        have hpos1 : 0 < c.getD (i0 + 1) 0 := by
          have h1 := husesb (i0 + 1)
          have h2 := hfit (i0 + 1)
          simp only [Block.uses] at h1
          split_ifs at h1 <;> omega
        have ht : t < 4 := by omega
        have hfit' : Fits (B.erase (Block.taA i0)) (dec1 (dec1 c i0) (i0 + 1)) := by
          refine fits_erase_of_getD B c _ _ hfit hbB ?_
          intro j
          left
          rw [getD_twodec c i0 1 (by omega) hipos hpos1 j]
          simp only [Block.uses]
          by_cases hj0 : j = i0
          · subst hj0
            split_ifs <;> omega
          by_cases hj1 : j = i0 + 1
          · subst hj1
            split_ifs <;> omega
          · split_ifs <;> omega
        have hsum' : (dec1 (dec1 c i0) (i0 + 1)).sum ≤ n := by
          have s1 := sum_dec1_le (dec1 c i0) (i0 + 1)
          have s2 := sum_dec1_lt c i0 hipos
          omega
        have rec := ih _ hsum' (B.erase (Block.taA i0)) m (t + 1) p hfit' hok'
          (by omega) (by omega) (by omega)
        have heq : val (m + mcount (B.erase (Block.taA i0)))
            (t + 1 + tcount (B.erase (Block.taA i0)))
            (p + pcount (B.erase (Block.taA i0))) =
            val (m + mcount B) (t + tcount B) (p + pcount B) := by
          rw [show m + mcount (B.erase (Block.taA i0)) = m + mcount B by omega,
            show t + 1 + tcount (B.erase (Block.taA i0)) = t + tcount B by omega,
            show p + pcount (B.erase (Block.taA i0)) = p + pcount B by omega]
        exact le_trans (dfs_le_taA c m t p i0 hm hzi ht
          ⟨by omega, hok9, hpos1⟩) (heq ▸ rec)
      | taG i0 =>
        obtain rfl : i0 = i := hbbase
        simp [Block.isMeld, Block.isTaatsu, Block.isPairH] at hmcE htcE hpcE
        obtain ⟨hok27, hok9⟩ : i0 < 27 ∧ i0 % 9 ≤ 6 := hokb
        have hpos2 : 0 < c.getD (i0 + 2) 0 := by
          have h1 := husesb (i0 + 2)
          have h2 := hfit (i0 + 2)
          simp only [Block.uses] at h1
          split_ifs at h1 <;> omega
        have ht : t < 4 := by omega
        have hfit' : Fits (B.erase (Block.taG i0)) (dec1 (dec1 c i0) (i0 + 2)) := by
          refine fits_erase_of_getD B c _ _ hfit hbB ?_
          intro j
          left
          rw [getD_twodec c i0 2 (by omega) hipos hpos2 j]
          simp only [Block.uses]
          by_cases hj0 : j = i0
          · subst hj0
            split_ifs <;> omega
          by_cases hj2 : j = i0 + 2
          · subst hj2
            split_ifs <;> omega
          · split_ifs <;> omega
        have hsum' : (dec1 (dec1 c i0) (i0 + 2)).sum ≤ n := by
          have s1 := sum_dec1_le (dec1 c i0) (i0 + 2)
          have s2 := sum_dec1_lt c i0 hipos
          omega
        have rec := ih _ hsum' (B.erase (Block.taG i0)) m (t + 1) p hfit' hok'
          (by omega) (by omega) (by omega)
        have heq : val (m + mcount (B.erase (Block.taG i0)))
            (t + 1 + tcount (B.erase (Block.taG i0)))
            (p + pcount (B.erase (Block.taG i0))) =
            val (m + mcount B) (t + tcount B) (p + pcount B) := by
          rw [show m + mcount (B.erase (Block.taG i0)) = m + mcount B by omega,
            show t + 1 + tcount (B.erase (Block.taG i0)) = t + tcount B by omega,
            show p + pcount (B.erase (Block.taG i0)) = p + pcount B by omega]
        exact le_trans (dfs_le_taG c m t p i0 hm hzi ht
          ⟨by omega, hok9, hpos2⟩) (heq ▸ rec)
    · have husesi : uses B i = 0 := by
        unfold uses
        refine List.sum_eq_zero ?_
        intro x hx
        obtain ⟨b, hbB, rfl⟩ := List.mem_map.mp hx
        have hge := hbase_ge b hbB
        have hne : b.base ≠ i := fun he => hati ⟨b, hbB, he⟩
        exact uses_eq_zero_of_lt_base b i (by omega)
      have hfit' : Fits B (dec1 c i) := by
        intro j
        by_cases hj : j = i
        · subst hj
          rw [getD_dec1_self c j hilen]
          omega
        · rw [getD_dec1_ne c i j hj]
          exact hfit j
      have hsum' : (dec1 c i).sum ≤ n := by
        have := sum_dec1_lt c i hipos
        omega
      exact le_trans (dfs_le_skip c m t p i hm hzi)
        (ih (dec1 c i) hsum' B m t p hfit' hok hm4 ht4 hp4)

end Mahjong

namespace Mahjong

theorem fits_of_le (B : List Block) (c c' : List Nat) (h : Fits B c')
    (hle : ∀ j, c'.getD j 0 ≤ c.getD j 0) : Fits B c :=
  fun j => le_trans (h j) (hle j)

theorem fits_cons (b : Block) (B' : List Block) (c c' : List Nat)
    (hfit : Fits B' c') (h : ∀ j, b.uses j + c'.getD j 0 ≤ c.getD j 0) :
    Fits (b :: B') c := by
  intro j
  rw [uses_cons]
  have h1 := hfit j
  have h2 := h j
  omega

theorem okB_cons (b : Block) (B : List Block) (hb : b.ok) (hB : OkB B) :
    OkB (b :: B) := by
  intro x hx
  rcases List.mem_cons.mp hx with rfl | hx
  · exact hb
  · exact hB x hx

theorem dfs_eq_999 (c : List Nat) (m t p : Nat) (h : 4 < m) :
    dfs c m t p = 999 := by
  rw [dfs, if_pos h]

theorem val_le_8 (m t p : Nat) : val m t p ≤ 8 := by
  unfold val
  omega

/-- Soundness of the search: any value below every fitting block list's
shanten value is below `dfs`. -/
theorem le_dfs_of_forall (n : Nat) : ∀ (c : List Nat), c.sum ≤ n →
    c.length = 34 → ∀ (m t p : Nat) (L : Int), m ≤ 4 → t ≤ 4 → p ≤ 1 →
    (∀ B : List Block, Fits B c → OkB B → m + mcount B ≤ 4 →
      t + tcount B ≤ 4 → p + pcount B ≤ 1 →
      L ≤ val (m + mcount B) (t + tcount B) (p + pcount B)) →
    L ≤ dfs c m t p := by
  induction n with
  | zero =>
    intro c hc hlen m t p L hm ht hp hall
    have hLval : L ≤ val m t p := by
      have := hall [] (fun j => by simp [uses]) (fun b hb => by simp at hb)
        (by simpa [mcount] using hm) (by simpa [tcount] using ht)
        (by simpa [pcount] using hp)
      simpa [mcount, tcount, pcount] using this
    rw [dfs, if_neg (by omega)]
    split
    · exact hLval
    · rename_i i heq
      rw [firstNZ_of_sum_zero c (by omega)] at heq
      exact Option.noConfusion heq
  | succ n ih =>
    intro c hc hlen m t p L hm ht hp hall
    have hLval : L ≤ val m t p := by
      have := hall [] (fun j => by simp [uses]) (fun b hb => by simp at hb)
        (by simpa [mcount] using hm) (by simpa [tcount] using ht)
        (by simpa [pcount] using hp)
      simpa [mcount, tcount, pcount] using this
    rw [dfs, if_neg (by omega)]
    split
    · exact hLval
    · rename_i i heq
      have hipos : 0 < c.getD i 0 := firstNZ_some_pos c i heq
      have hilen : i < c.length := firstNZ_lt_length c i heq
      have hi34 : i < 34 := by omega
      apply le_foldl_min
      · refine le_min hLval ?_
        refine ih (dec1 c i) (by have := sum_dec1_lt c i hipos; omega)
          (by rw [length_dec1]; exact hlen) m t p L hm ht hp ?_
        intro B hfB hoB h1 h2 h3
        exact hall B (fits_of_le B c (dec1 c i) hfB (getD_dec1_le c i)) hoB h1 h2 h3
      · intro x hx
        rcases List.mem_append.mp hx with hx123 | hx456
        · rcases List.mem_append.mp hx123 with hx12 | hx3
          · rcases List.mem_append.mp hx12 with hx1 | hx2
            · -- triplet branch
              obtain ⟨h3g, rfl⟩ := mem_ite_single _ _ hx1
              by_cases hm4 : m + 1 ≤ 4
              · refine ih (c.set i (c.getD i 0 - 3))
                  (by have := sum_setsub_lt c i 3 (by omega) hipos; omega)
                  (by rw [List.length_set]; exact hlen) (m + 1) t p L hm4 ht hp ?_
                intro B' hfB' hoB' h1 h2 h3
                have hcons : Fits (Block.tri i :: B') c := by
                  refine fits_cons _ _ _ _ hfB' ?_
                  intro j
                  rw [getD_setsub c i 3 hipos j]
                  simp only [Block.uses]
                  by_cases hj : j = i
                  · subst hj
                    split_ifs <;> omega
                  · split_ifs <;> omega
                have hok : OkB (Block.tri i :: B') :=
                  okB_cons _ _ (by exact hi34) hoB'
                have hq := hall (Block.tri i :: B') hcons hok
                  (by rw [mcount_cons]; simp [Block.isMeld]; omega)
                  (by rw [tcount_cons]; simp [Block.isTaatsu]; omega)
                  (by rw [pcount_cons]; simp [Block.isPairH]; omega)
                rw [mcount_cons, tcount_cons, pcount_cons] at hq
                simp [Block.isMeld, Block.isTaatsu, Block.isPairH] at hq
                rw [show m + (1 + mcount B') = m + 1 + mcount B' by omega] at hq
                exact hq
              · rw [dfs_eq_999 _ _ _ _ (by omega)]
                have := val_le_8 m t p
                omega
            · -- run branch
              obtain ⟨hg, rfl⟩ := mem_ite_single _ _ hx2
              obtain ⟨hi26, hi9, hp1, hp2⟩ := hg
              by_cases hm4 : m + 1 ≤ 4
              · refine ih (dec1 (dec1 (dec1 c i) (i + 1)) (i + 2))
                  (by
                    have s1 := sum_dec1_le (dec1 (dec1 c i) (i + 1)) (i + 2)
                    have s2 := sum_dec1_le (dec1 c i) (i + 1)
                    have s3 := sum_dec1_lt c i hipos
                    omega)
                  (by rw [length_dec1, length_dec1, length_dec1]; exact hlen)
                  (m + 1) t p L hm4 ht hp ?_
                intro B' hfB' hoB' h1 h2 h3
                have hcons : Fits (Block.run i :: B') c := by
                  refine fits_cons _ _ _ _ hfB' ?_
                  intro j
                  rw [getD_rundec c i hipos hp1 hp2 j]
                  simp only [Block.uses]
                  by_cases hj0 : j = i
                  · subst hj0
                    split_ifs <;> omega
                  by_cases hj1 : j = i + 1
                  · subst hj1
                    split_ifs <;> omega
                  by_cases hj2 : j = i + 2
                  · subst hj2
                    split_ifs <;> omega
                  · split_ifs <;> omega
                have hok : OkB (Block.run i :: B') :=
                  okB_cons _ _ (by exact ⟨by omega, hi9⟩) hoB'
                have hq := hall (Block.run i :: B') hcons hok
                  (by rw [mcount_cons]; simp [Block.isMeld]; omega)
                  (by rw [tcount_cons]; simp [Block.isTaatsu]; omega)
                  (by rw [pcount_cons]; simp [Block.isPairH]; omega)
                rw [mcount_cons, tcount_cons, pcount_cons] at hq
                simp [Block.isMeld, Block.isTaatsu, Block.isPairH] at hq
                rw [show m + (1 + mcount B') = m + 1 + mcount B' by omega] at hq
                exact hq
              · rw [dfs_eq_999 _ _ _ _ (by omega)]
                have := val_le_8 m t p
                omega
          · -- pair-head branch
            obtain ⟨hg, rfl⟩ := mem_ite_single _ _ hx3
            obtain ⟨hp0, h2g⟩ := hg
            refine ih (c.set i (c.getD i 0 - 2))
              (by have := sum_setsub_lt c i 2 (by omega) hipos; omega)
              (by rw [List.length_set]; exact hlen) m t 1 L hm ht (by omega) ?_
            intro B' hfB' hoB' h1 h2 h3
            have hcons : Fits (Block.pairH i :: B') c := by
              refine fits_cons _ _ _ _ hfB' ?_
              intro j
              rw [getD_setsub c i 2 hipos j]
              simp only [Block.uses]
              by_cases hj : j = i
              · subst hj
                split_ifs <;> omega
              · split_ifs <;> omega
            have hok : OkB (Block.pairH i :: B') :=
              okB_cons _ _ (by exact hi34) hoB'
            have hq := hall (Block.pairH i :: B') hcons hok
              (by rw [mcount_cons]; simp [Block.isMeld]; omega)
              (by rw [tcount_cons]; simp [Block.isTaatsu]; omega)
              (by rw [pcount_cons]; simp [Block.isPairH]; omega)
            rw [mcount_cons, tcount_cons, pcount_cons] at hq
            simp [Block.isMeld, Block.isTaatsu, Block.isPairH] at hq
            rw [show p + (1 + pcount B') = 1 + pcount B' by omega] at hq
            exact hq
        · -- taatsu group, guarded by t < 4
          by_cases htl : t < 4
          · rw [if_pos htl] at hx456
            rcases List.mem_append.mp hx456 with hx45 | hx6
            · rcases List.mem_append.mp hx45 with hx4 | hx5
              · -- pair-as-taatsu branch
                obtain ⟨h2g, rfl⟩ := mem_ite_single _ _ hx4
                refine ih (c.set i (c.getD i 0 - 2))
                  (by have := sum_setsub_lt c i 2 (by omega) hipos; omega)
                  (by rw [List.length_set]; exact hlen) m (t + 1) p L hm
                  (by omega) hp ?_
                intro B' hfB' hoB' h1 h2 h3
                have hcons : Fits (Block.ta2 i :: B') c := by
                  refine fits_cons _ _ _ _ hfB' ?_
                  intro j
                  rw [getD_setsub c i 2 hipos j]
                  simp only [Block.uses]
                  by_cases hj : j = i
                  · subst hj
                    split_ifs <;> omega
                  · split_ifs <;> omega
                have hok : OkB (Block.ta2 i :: B') :=
                  okB_cons _ _ (by exact hi34) hoB'
                have hq := hall (Block.ta2 i :: B') hcons hok
                  (by rw [mcount_cons]; simp [Block.isMeld]; omega)
                  (by rw [tcount_cons]; simp [Block.isTaatsu]; omega)
                  (by rw [pcount_cons]; simp [Block.isPairH]; omega)
                rw [mcount_cons, tcount_cons, pcount_cons] at hq
                simp [Block.isMeld, Block.isTaatsu, Block.isPairH] at hq
                rw [show t + (1 + tcount B') = t + 1 + tcount B' by omega] at hq
                exact hq
              · -- adjacent taatsu branch
                obtain ⟨hg, rfl⟩ := mem_ite_single _ _ hx5
                obtain ⟨hi26, hi9, hp1⟩ := hg
                refine ih (dec1 (dec1 c i) (i + 1))
                  (by
                    have s1 := sum_dec1_le (dec1 c i) (i + 1)
                    have s2 := sum_dec1_lt c i hipos
                    omega)
                  (by rw [length_dec1, length_dec1]; exact hlen) m (t + 1) p L hm
                  (by omega) hp ?_
                intro B' hfB' hoB' h1 h2 h3
                have hcons : Fits (Block.taA i :: B') c := by
                  refine fits_cons _ _ _ _ hfB' ?_
                  intro j
                  rw [getD_twodec c i 1 (by omega) hipos hp1 j]
                  simp only [Block.uses]
                  by_cases hj0 : j = i
                  · subst hj0
                    split_ifs <;> omega
                  by_cases hj1 : j = i + 1
                  · subst hj1
                    split_ifs <;> omega
                  · split_ifs <;> omega
                have hok : OkB (Block.taA i :: B') :=
                  okB_cons _ _ (by exact ⟨by omega, hi9⟩) hoB'
                have hq := hall (Block.taA i :: B') hcons hok
                  (by rw [mcount_cons]; simp [Block.isMeld]; omega)
                  (by rw [tcount_cons]; simp [Block.isTaatsu]; omega)
                  (by rw [pcount_cons]; simp [Block.isPairH]; omega)
                rw [mcount_cons, tcount_cons, pcount_cons] at hq
                simp [Block.isMeld, Block.isTaatsu, Block.isPairH] at hq
                rw [show t + (1 + tcount B') = t + 1 + tcount B' by omega] at hq
                exact hq
            · -- gapped taatsu branch
              obtain ⟨hg, rfl⟩ := mem_ite_single _ _ hx6
              obtain ⟨hi26, hi9, hp2⟩ := hg
              refine ih (dec1 (dec1 c i) (i + 2))
                (by
                  have s1 := sum_dec1_le (dec1 c i) (i + 2)
                  have s2 := sum_dec1_lt c i hipos
                  omega)
                (by rw [length_dec1, length_dec1]; exact hlen) m (t + 1) p L hm
                (by omega) hp ?_
              intro B' hfB' hoB' h1 h2 h3
              have hcons : Fits (Block.taG i :: B') c := by
                refine fits_cons _ _ _ _ hfB' ?_
                intro j
                rw [getD_twodec c i 2 (by omega) hipos hp2 j]
                simp only [Block.uses]
                by_cases hj0 : j = i
                · subst hj0
                  split_ifs <;> omega
                by_cases hj2 : j = i + 2
                · subst hj2
                  split_ifs <;> omega
                · split_ifs <;> omega
              have hok : OkB (Block.taG i :: B') :=
                okB_cons _ _ (by exact ⟨by omega, hi9⟩) hoB'
              have hq := hall (Block.taG i :: B') hcons hok
                (by rw [mcount_cons]; simp [Block.isMeld]; omega)
                (by rw [tcount_cons]; simp [Block.isTaatsu]; omega)
                (by rw [pcount_cons]; simp [Block.isPairH]; omega)
              rw [mcount_cons, tcount_cons, pcount_cons] at hq
              simp [Block.isMeld, Block.isTaatsu, Block.isPairH] at hq
              rw [show t + (1 + tcount B') = t + 1 + tcount B' by omega] at hq
              exact hq
          · rw [if_neg htl] at hx456
            simp at hx456

end Mahjong

namespace Mahjong

/-! ## Tile accounting for block lists -/

theorem listSum_eq_range (c : List Nat) :
    c.sum = ∑ j in Finset.range c.length, c.getD j 0 := by
  induction c with
  | nil => simp
  | cons a c ih =>
    rw [List.sum_cons, List.length_cons, Finset.sum_range_succ', ih]
    simp
    omega

theorem block_total (b : Block) (hok : b.ok) :
    ∑ j in Finset.range 34, b.uses j = (if b.isMeld then 3 else 2) := by
  cases b with
  | tri i =>
    have hi : i < 34 := hok
    simp only [Block.uses, Block.isMeld, if_true]
    rw [Finset.sum_ite_eq' (Finset.range 34) i (fun _ => 3)]
    simp [hi]
  | run i =>
    obtain ⟨h27, h9⟩ : i < 27 ∧ i % 9 ≤ 6 := hok
    simp only [Block.uses, Block.isMeld, if_true]
    rw [Finset.sum_add_distrib, Finset.sum_add_distrib,
      Finset.sum_ite_eq' (Finset.range 34) i (fun _ => 1),
      Finset.sum_ite_eq' (Finset.range 34) (i + 1) (fun _ => 1),
      Finset.sum_ite_eq' (Finset.range 34) (i + 2) (fun _ => 1)]
    simp only [Finset.mem_range]
    rw [if_pos (by omega), if_pos (by omega), if_pos (by omega)]
  | pairH i =>
    have hi : i < 34 := hok
    simp only [Block.uses, Block.isMeld]
    rw [Finset.sum_ite_eq' (Finset.range 34) i (fun _ => 2)]
    simp [hi]
  | ta2 i =>
    have hi : i < 34 := hok
    simp only [Block.uses, Block.isMeld]
    rw [Finset.sum_ite_eq' (Finset.range 34) i (fun _ => 2)]
    simp [hi]
  | taA i =>
    obtain ⟨h27, h9⟩ : i < 27 ∧ i % 9 ≤ 7 := hok
    simp only [Block.uses, Block.isMeld]
    rw [Finset.sum_add_distrib,
      Finset.sum_ite_eq' (Finset.range 34) i (fun _ => 1),
      Finset.sum_ite_eq' (Finset.range 34) (i + 1) (fun _ => 1)]
    simp only [Finset.mem_range]
    rw [if_pos (by omega), if_pos (by omega)]
    norm_num
  | taG i =>
    obtain ⟨h27, h9⟩ : i < 27 ∧ i % 9 ≤ 6 := hok
    simp only [Block.uses, Block.isMeld]
    rw [Finset.sum_add_distrib,
      Finset.sum_ite_eq' (Finset.range 34) i (fun _ => 1),
      Finset.sum_ite_eq' (Finset.range 34) (i + 2) (fun _ => 1)]
    simp only [Finset.mem_range]
    rw [if_pos (by omega), if_pos (by omega)]
    norm_num

theorem uses_total (B : List Block) (hok : OkB B) :
    ∑ j in Finset.range 34, uses B j =
      3 * mcount B + 2 * tcount B + 2 * pcount B := by
  induction B with
  | nil => simp [uses, mcount, tcount, pcount]
  | cons b B ih =>
    have hb : b.ok := hok b (by simp)
    have hB : OkB B := fun x hx => hok x (by simp [hx])
    have hsum : ∑ j in Finset.range 34, uses (b :: B) j =
        (∑ j in Finset.range 34, b.uses j) + ∑ j in Finset.range 34, uses B j := by
      rw [← Finset.sum_add_distrib]
      refine Finset.sum_congr rfl ?_
      intro j _
      rw [uses_cons]
    rw [hsum, block_total b hb, ih hB, mcount_cons, tcount_cons, pcount_cons]
    cases b <;> simp [Block.isMeld, Block.isTaatsu, Block.isPairH] <;> omega

theorem fits_total (B : List Block) (c : List Nat) (hfit : Fits B c)
    (hok : OkB B) (hlen : c.length = 34) :
    3 * mcount B + 2 * tcount B + 2 * pcount B ≤ c.sum := by
  rw [← uses_total B hok, listSum_eq_range c, hlen]
  exact Finset.sum_le_sum (fun j _ => hfit j)

/-- Non-negativity of the standard search on at most 13 tiles. -/
theorem general_nonneg (c : List Nat) (hlen : c.length = 34)
    (hsum : c.sum ≤ 13) : 0 ≤ dfs c 0 0 0 := by
  refine le_dfs_of_forall c.sum c (le_refl _) hlen 0 0 0 0 (by omega) (by omega)
    (by omega) ?_
  intro B hfit hok h1 h2 h3
  have htot := fits_total B c hfit hok hlen
  simp only [Nat.zero_add] at h1 h2 h3 ⊢
  unfold val
  omega

/-! ## The removal loop of `shanten_standard` -/

theorem loop_le_best (k : Nat) : ∀ (i : Nat) (best : Int) (c : List Nat),
    34 ≤ i + k → shantenRemovalLoop i best c ≤ best := by
  induction k with
  | zero =>
    intro i best c hk
    rw [shantenRemovalLoop, if_neg (by omega)]
  | succ k ih =>
    intro i best c hk
    by_cases hi : i < 34
    · rw [shantenRemovalLoop, if_pos hi]
      split
      · exact le_trans (ih (i + 1) _ c (by omega)) (min_le_left _ _)
      · exact ih (i + 1) best c (by omega)
    · rw [shantenRemovalLoop, if_neg hi]

theorem loop_le_elem (k : Nat) : ∀ (i : Nat) (best : Int) (c : List Nat)
    (i0 : Nat), 34 ≤ i + k → i ≤ i0 → i0 < 34 → 0 < c.getD i0 0 →
    shantenRemovalLoop i best c ≤ shanten_standard (dec1 c i0) := by
  induction k with
  | zero =>
    intro i best c i0 hk hii0 hi0 hpos
    omega
  | succ k ih =>
    intro i best c i0 hk hii0 hi0 hpos
    by_cases he : i = i0
    · subst he
      rw [shantenRemovalLoop, if_pos hi0]
      rw [dif_pos hpos]
      exact le_trans (loop_le_best k (i + 1) _ c (by omega)) (min_le_right _ _)
    · have hi : i < 34 := by omega
      rw [shantenRemovalLoop, if_pos hi]
      split
      · exact ih (i + 1) _ c i0 (by omega) (by omega) hi0 hpos
      · exact ih (i + 1) best c i0 (by omega) (by omega) hi0 hpos

theorem loop_ge (k : Nat) : ∀ (i : Nat) (best : Int) (c : List Nat) (L : Int),
    34 ≤ i + k → L ≤ best → (∀ j, i ≤ j → j < 34 → 0 < c.getD j 0 →
      L ≤ shanten_standard (dec1 c j)) →
    L ≤ shantenRemovalLoop i best c := by
  induction k with
  | zero =>
    intro i best c L hk hb hj
    rw [shantenRemovalLoop, if_neg (by omega)]
    exact hb
  | succ k ih =>
    intro i best c L hk hb hj
    by_cases hi : i < 34
    · rw [shantenRemovalLoop, if_pos hi]
      split
      · rename_i hpos
        refine ih (i + 1) _ c L (by omega) (le_min hb (hj i (le_refl _) hi hpos)) ?_
        intro j h1 h2 h3
        exact hj j (by omega) h2 h3
      · refine ih (i + 1) best c L (by omega) hb ?_
        intro j h1 h2 h3
        exact hj j (by omega) h2 h3
    · rw [shantenRemovalLoop, if_neg hi]
      exact hb

end Mahjong

namespace Mahjong

theorem chiitoitsu_nonneg (c : List Nat) (hsum : c.sum ≤ 13) :
    0 ≤ shanten_chiitoitsu c := by
  have hkey := sum_eq_twice_halves_add_odds c
  have hval : shanten_chiitoitsu c =
      6 - ((min ((c.map (fun x => x / 2)).sum) 7 : Nat) : Int) +
        ((7 - c.countP (fun x => decide (0 < x)) : Nat) : Int) := rfl
  rw [hval]
  omega

theorem countP_any_le_sum (v : List Nat) :
    v.countP (fun x => decide (0 < x)) +
      (if v.any (fun x => decide (2 ≤ x)) then 1 else 0) ≤ v.sum := by
  induction v with
  | nil => simp
  | cons a v ih =>
    have hle : v.countP (fun x => decide (0 < x)) ≤ v.sum := by
      rcases Bool.eq_false_or_eq_true (v.any (fun x => decide (2 ≤ x))) with h | h <;>
        simp only [h, if_true, if_false] at ih <;> omega
    by_cases h2 : 2 ≤ a
    · have h0 : 0 < a := by omega
      simp only [List.countP_cons, List.any_cons, List.sum_cons,
        (show decide (0 < a) = true by simpa using h0),
        (show decide (2 ≤ a) = true by simpa using h2), Bool.true_or,
        eq_self_iff_true, if_true]
      omega
    · by_cases h0 : 0 < a
      · simp only [List.countP_cons, List.any_cons, List.sum_cons,
          (show decide (0 < a) = true by simpa using h0),
          (show decide (2 ≤ a) = false by simpa using h2), Bool.false_or,
          eq_self_iff_true, if_true]
        omega
      · simp only [List.countP_cons, List.any_cons, List.sum_cons,
          (show decide (0 < a) = false by simpa using h0),
          (show decide (2 ≤ a) = false by simpa using h2), Bool.false_or,
          Bool.false_eq_true, if_false]
        omega

theorem kokushi_nonneg (c : List Nat) (hlen : c.length = 34)
    (hsum : c.sum = 13) : 0 ≤ shanten_kokushi c := by
  have hmap : (TERMINAL_HONOR_INDICES.map (fun i => c.getD i 0)).countP
      (fun x => decide (0 < x)) =
      TERMINAL_HONOR_INDICES.countP (fun i => decide (0 < c.getD i 0)) := by
    rw [List.countP_map]
    rfl
  have hany : (TERMINAL_HONOR_INDICES.map (fun i => c.getD i 0)).any
      (fun x => decide (2 ≤ x)) =
      TERMINAL_HONOR_INDICES.any (fun i => decide (2 ≤ c.getD i 0)) := by
    rw [List.any_map]
    rfl
  have hbound := countP_any_le_sum (TERMINAL_HONOR_INDICES.map (fun i => c.getD i 0))
  rw [hmap] at hbound
  have hsum34 : c.sum = ∑ j in Finset.range 34, c.getD j 0 := by
    rw [listSum_eq_range c, hlen]
  have hexp : ∑ j in Finset.range 34, c.getD j 0 =
      c.getD 0 0 + c.getD 1 0 + c.getD 2 0 + c.getD 3 0 + c.getD 4 0 +
      c.getD 5 0 + c.getD 6 0 + c.getD 7 0 + c.getD 8 0 + c.getD 9 0 +
      c.getD 10 0 + c.getD 11 0 + c.getD 12 0 + c.getD 13 0 + c.getD 14 0 +
      c.getD 15 0 + c.getD 16 0 + c.getD 17 0 + c.getD 18 0 + c.getD 19 0 +
      c.getD 20 0 + c.getD 21 0 + c.getD 22 0 + c.getD 23 0 + c.getD 24 0 +
      c.getD 25 0 + c.getD 26 0 + c.getD 27 0 + c.getD 28 0 + c.getD 29 0 +
      c.getD 30 0 + c.getD 31 0 + c.getD 32 0 + c.getD 33 0 := by
    simp [Finset.sum_range_succ]
  have hvsum : (TERMINAL_HONOR_INDICES.map (fun i => c.getD i 0)).sum =
      c.getD 0 0 + c.getD 8 0 + c.getD 9 0 + c.getD 17 0 + c.getD 18 0 +
      c.getD 26 0 + c.getD 27 0 + c.getD 28 0 + c.getD 29 0 + c.getD 30 0 +
      c.getD 31 0 + c.getD 32 0 + c.getD 33 0 := by
    simp [TERMINAL_HONOR_INDICES]
    omega
  rw [hvsum, hany] at hbound
  rw [hsum34, hexp] at hsum
  have hval : shanten_kokushi c =
      13 - ((TERMINAL_HONOR_INDICES.countP
          (fun i => decide (0 < c.getD i 0)) : Nat) : Int) -
        (if TERMINAL_HONOR_INDICES.any (fun i => decide (2 ≤ c.getD i 0))
          then 1 else 0) := rfl
  rw [hval]
  rcases Bool.eq_false_or_eq_true (TERMINAL_HONOR_INDICES.any
      (fun i => decide (2 ≤ c.getD i 0))) with h | h <;>
    simp only [h, eq_self_iff_true, if_true, if_false, Bool.false_eq_true]
      at hbound ⊢ <;> omega

/-- C3: on a 14-tile seven-pairs vector the seven-pairs shanten is −1,
so not all representation values are non-negative. -/
theorem C3_counterexample :
    ([2, 2, 2, 2, 2, 2, 2] ++ List.replicate 27 0).sum = 14 ∧
    shanten_chiitoitsu ([2, 2, 2, 2, 2, 2, 2] ++ List.replicate 27 0) < 0 := by
  decide

end Mahjong

namespace Mahjong

theorem uses_append (B1 B2 : List Block) (j : Nat) :
    uses (B1 ++ B2) j = uses B1 j + uses B2 j := by
  simp [uses]

theorem uses_replicate (n : Nat) (b : Block) (j : Nat) :
    uses (List.replicate n b) j = n * b.uses j := by
  induction n with
  | zero => simp [uses]
  | succ n ih =>
    rw [List.replicate_succ, uses_cons, ih]
    ring

theorem getD_take (c : List Nat) (n j : Nat) (h : j < n) :
    (c.take n).getD j 0 = c.getD j 0 := by
  induction c generalizing n j with
  | nil => simp
  | cons a c ih =>
    cases n with
    | zero => omega
    | succ n =>
      cases j with
      | zero => simp
      | succ j => simpa using ih n j (by omega)

theorem getD_drop (c : List Nat) (k j : Nat) :
    (c.drop k).getD j 0 = c.getD (k + j) 0 := by
  induction c generalizing k with
  | nil => simp
  | cons a c ih =>
    cases k with
    | zero => simp
    | succ k =>
      have := ih k
      simpa [Nat.succ_add] using this

/-- Inversion of a successful `_suit_meldable` run at its first non-zero
slot. -/
theorem suit_meldable_inv (c9 : List Nat) (i : Nat)
    (h : _suit_meldable c9 = true) (hz : firstNZ c9 = some i) :
    (3 ≤ c9.getD i 0 ∧ _suit_meldable (c9.set i (c9.getD i 0 - 3)) = true) ∨
    (i ≤ 6 ∧ 0 < c9.getD (i + 1) 0 ∧ 0 < c9.getD (i + 2) 0 ∧
      _suit_meldable (dec1 (dec1 (dec1 c9 i) (i + 1)) (i + 2)) = true) := by
  rw [_suit_meldable] at h
  split at h
  · rename_i heq
    rw [hz] at heq
    exact Option.noConfusion heq
  · rename_i i' heq
    rw [hz] at heq
    obtain rfl : i = i' := by injection heq
    rcases Bool.or_eq_true_iff.mp h with h1 | h2
    · left
      split_ifs at h1 with hc
      · exact ⟨hc, h1⟩
    · right
      split_ifs at h2 with hc
      · exact ⟨hc.1, hc.2.1, hc.2.2, h2⟩

/-- Extraction: a meldable 9-slot suit slice is exactly a list of triplet
and run blocks placed at the suit's offset. -/
theorem suit_extract (n : Nat) : ∀ (c9 : List Nat), c9.sum ≤ n →
    c9.length ≤ 9 → _suit_meldable c9 = true →
    ∀ off : Nat, off = 0 ∨ off = 9 ∨ off = 18 →
    ∃ B : List Block, OkB B ∧ (∀ b ∈ B, b.isMeld = true) ∧
      (∀ j : Nat, uses B j =
        if off ≤ j ∧ j - off < 9 then c9.getD (j - off) 0 else 0) := by
  induction n with
  | zero =>
    intro c9 hsum hlen hmeld off hoff
    refine ⟨[], fun b hb => by simp at hb, fun b hb => by simp at hb, ?_⟩
    intro j
    have hz : c9.getD (j - off) 0 = 0 := by
      have := getD_le_sum c9 (j - off)
      omega
    rw [uses_nil, hz]
    simp
  | succ n ih =>
    intro c9 hsum hlen hmeld off hoff
    cases hz : firstNZ c9 with
    | none =>
      refine ⟨[], fun b hb => by simp at hb, fun b hb => by simp at hb, ?_⟩
      intro j
      rw [uses_nil, firstNZ_none c9 hz (j - off)]
      simp
    | some i =>
      have hipos : 0 < c9.getD i 0 := firstNZ_some_pos c9 i hz
      have hilen : i < c9.length := firstNZ_lt_length c9 i hz
      have hi9 : i < 9 := by omega
      rcases suit_meldable_inv c9 i hmeld hz with ⟨h3, hrec⟩ | ⟨hi6, hp1, hp2, hrec⟩
      · obtain ⟨B', hok', hmeld', hB'⟩ := ih (c9.set i (c9.getD i 0 - 3))
          (by have := sum_setsub_lt c9 i 3 (by omega) hipos; omega)
          (by rw [List.length_set]; exact hlen) hrec off hoff
        refine ⟨Block.tri (off + i) :: B', ?_, ?_, ?_⟩
        · refine okB_cons _ _ ?_ hok'
          show off + i < 34
          omega
        · intro b hb
          rcases List.mem_cons.mp hb with rfl | hb
          · rfl
          · exact hmeld' b hb
        · intro j
          rw [uses_cons, hB' j]
          by_cases hji : j = off + i
          · subst hji
            have hu : (Block.tri (off + i)).uses (off + i) = 3 := by
              simp [Block.uses]
            have hw : off ≤ off + i ∧ off + i - off < 9 := ⟨by omega, by omega⟩
            rw [hu, if_pos hw, if_pos hw]
            have he : off + i - off = i := by omega
            rw [he, getD_set_self c9 i _ hilen]
            omega
          · have hu : (Block.tri (off + i)).uses j = 0 := by
              simp [Block.uses, hji]
            rw [hu]
            by_cases hw : off ≤ j ∧ j - off < 9
            · rw [if_pos hw, if_pos hw,
                getD_set_ne c9 i (j - off) _ (by omega)]
              omega
            · rw [if_neg hw, if_neg hw]
      · obtain ⟨B', hok', hmeld', hB'⟩ := ih
          (dec1 (dec1 (dec1 c9 i) (i + 1)) (i + 2))
          (by
            have s1 := sum_dec1_le (dec1 (dec1 c9 i) (i + 1)) (i + 2)
            have s2 := sum_dec1_le (dec1 c9 i) (i + 1)
            have s3 := sum_dec1_lt c9 i hipos
            omega)
          (by rw [length_dec1, length_dec1, length_dec1]; exact hlen) hrec off hoff
        refine ⟨Block.run (off + i) :: B', ?_, ?_, ?_⟩
        · refine okB_cons _ _ ?_ hok'
          show off + i < 27 ∧ (off + i) % 9 ≤ 6
          rcases hoff with rfl | rfl | rfl <;> constructor <;> omega
        · intro b hb
          rcases List.mem_cons.mp hb with rfl | hb
          · rfl
          · exact hmeld' b hb
        · intro j
          rw [uses_cons, hB' j]
          have hrd := getD_rundec c9 i hipos hp1 hp2
          by_cases hj0 : j = off + i
          · subst hj0
            have hu : (Block.run (off + i)).uses (off + i) = 1 := by
              simp only [Block.uses]
              split_ifs <;> omega
            rw [hu, if_pos ⟨by omega, by omega⟩]
            have he : off + i - off = i := by omega
            rw [he, hrd i]
            split_ifs <;> omega
          · by_cases hj1 : j = off + i + 1
            · subst hj1
              have hu : (Block.run (off + i)).uses (off + i + 1) = 1 := by
                simp only [Block.uses]
                split_ifs <;> omega
              rw [hu, if_pos ⟨by omega, by omega⟩]
              have he : off + i + 1 - off = i + 1 := by omega
              rw [he, hrd (i + 1)]
              split_ifs <;> omega
            · by_cases hj2 : j = off + i + 2
              · subst hj2
                have hu : (Block.run (off + i)).uses (off + i + 2) = 1 := by
                  simp only [Block.uses]
                  split_ifs <;> omega
                rw [hu, if_pos ⟨by omega, by omega⟩]
                have he : off + i + 2 - off = i + 2 := by omega
                rw [he, hrd (i + 2)]
                split_ifs <;> omega
              · have hu : (Block.run (off + i)).uses j = 0 := by
                  simp only [Block.uses]
                  split_ifs <;> omega
                rw [hu]
                by_cases hw : off ≤ j ∧ j - off < 9
                · rw [if_pos hw, if_pos hw, hrd (j - off)]
                  split_ifs <;> omega
                · rw [if_neg hw, if_neg hw]

/-- Extraction for the honour area: counts divisible by three become
triplet blocks. -/
theorem honors_extract (k : Nat) (hk : k ≤ 7) (c : List Nat)
    (hdiv : ∀ k' : Nat, k' < 7 → c.getD (27 + k') 0 % 3 = 0) :
    ∃ B : List Block, OkB B ∧ (∀ b ∈ B, b.isMeld = true) ∧
      (∀ j, uses B j = if 27 ≤ j ∧ j < 27 + k then c.getD j 0 else 0) := by
  induction k with
  | zero =>
    refine ⟨[], fun b hb => by simp at hb, fun b hb => by simp at hb, ?_⟩
    intro j
    rw [uses_nil]
    rw [if_neg (by omega)]
  | succ k ihk =>
    obtain ⟨B', hok', hmeld', hB'⟩ := ihk (by omega)
    refine ⟨List.replicate (c.getD (27 + k) 0 / 3) (Block.tri (27 + k)) ++ B',
      ?_, ?_, ?_⟩
    · intro b hb
      rcases List.mem_append.mp hb with hb | hb
      · obtain rfl : b = Block.tri (27 + k) := List.eq_of_mem_replicate hb
        show 27 + k < 34
        omega
      · exact hok' b hb
    · intro b hb
      rcases List.mem_append.mp hb with hb | hb
      · obtain rfl : b = Block.tri (27 + k) := List.eq_of_mem_replicate hb
        rfl
      · exact hmeld' b hb
    · intro j
      rw [uses_append, uses_replicate, hB' j]
      by_cases hj : j = 27 + k
      · subst hj
        have hu : (Block.tri (27 + k)).uses (27 + k) = 3 := by
          simp [Block.uses]
        rw [hu, if_neg (by omega), if_pos ⟨by omega, by omega⟩]
        have := hdiv k (by omega)
        omega
      · have hu : (Block.tri (27 + k)).uses j = 0 := by
          simp [Block.uses, hj]
        rw [hu]
        by_cases hw : 27 ≤ j ∧ j < 27 + k
        · rw [if_pos hw, if_pos ⟨by omega, by omega⟩]
          omega
        · rw [if_neg hw, if_neg (by omega)]
          omega

end Mahjong

namespace Mahjong

/-- Inversion of a successful `is_agari_standard`: total 14 and a pair
index whose removal leaves honours and suits decomposable. -/
theorem agari_standard_inv (c : List Nat) (h : is_agari_standard c = true) :
    c.sum = 14 ∧ ∃ p : Nat, p < 34 ∧ 2 ≤ c.getD p 0 ∧
      _honors_ok (c.set p (c.getD p 0 - 2)) = true ∧
      _suits_ok (c.set p (c.getD p 0 - 2)) = true := by
  rw [is_agari_standard] at h
  split_ifs at h with hs
  have hsum : c.sum = 14 := by omega
  simp only [List.any_eq_true, List.mem_range] at h
  obtain ⟨p, hp34, hp⟩ := h
  refine ⟨hsum, p, hp34, ?_⟩
  split_ifs at hp with h2
  simp only [Bool.and_eq_true] at hp
  exact ⟨h2, hp.1, hp.2⟩

theorem honors_ok_div (c : List Nat) (h : _honors_ok c = true) :
    ∀ k : Nat, k < 7 → c.getD (27 + k) 0 % 3 = 0 := by
  intro k hk
  rw [_honors_ok] at h
  have hmem : 27 + k ∈ List.range' 27 7 := by
    rw [List.mem_range'_1]
    omega
  simpa using List.all_eq_true.mp h (27 + k) hmem

/-- A standard agari remainder (14 tiles minus a pair) is exactly a list
of four meld blocks (as counted below). -/
theorem agari_blocks (c2 : List Nat) (hlen : c2.length = 34)
    (hh : _honors_ok c2 = true) (hsu : _suits_ok c2 = true) :
    ∃ B : List Block, OkB B ∧ (∀ b ∈ B, b.isMeld = true) ∧
      ∀ j : Nat, uses B j = c2.getD j 0 := by
  rw [_suits_ok] at hsu
  simp only [Bool.and_eq_true] at hsu
  obtain ⟨⟨hsu1, hsu2⟩, hsu3⟩ := hsu
  obtain ⟨B1, hok1, hm1, hB1⟩ := suit_extract (c2.take 9).sum (c2.take 9)
    (le_refl _) (by rw [List.length_take]; omega) hsu1 0 (Or.inl rfl)
  obtain ⟨B2, hok2, hm2, hB2⟩ := suit_extract ((c2.drop 9).take 9).sum
    ((c2.drop 9).take 9) (le_refl _) (by rw [List.length_take]; omega)
    hsu2 9 (Or.inr (Or.inl rfl))
  obtain ⟨B3, hok3, hm3, hB3⟩ := suit_extract ((c2.drop 18).take 9).sum
    ((c2.drop 18).take 9) (le_refl _) (by rw [List.length_take]; omega)
    hsu3 18 (Or.inr (Or.inr rfl))
  obtain ⟨Bh, hokh, hmh, hBh⟩ :=
    honors_extract 7 (le_refl _) c2 (honors_ok_div c2 hh)
  refine ⟨B1 ++ B2 ++ B3 ++ Bh, ?_, ?_, ?_⟩
  · intro b hb
    simp only [List.mem_append] at hb
    rcases hb with ((hb | hb) | hb) | hb
    · exact hok1 b hb
    · exact hok2 b hb
    · exact hok3 b hb
    · exact hokh b hb
  · intro b hb
    simp only [List.mem_append] at hb
    rcases hb with ((hb | hb) | hb) | hb
    · exact hm1 b hb
    · exact hm2 b hb
    · exact hm3 b hb
    · exact hmh b hb
  · intro j
    rw [uses_append, uses_append, uses_append, hB1 j, hB2 j, hB3 j, hBh j]
    by_cases hj1 : j < 9
    · rw [if_pos (show 0 ≤ j ∧ j - 0 < 9 from ⟨Nat.zero_le j, by omega⟩),
        if_neg (show ¬(9 ≤ j ∧ j - 9 < 9) by omega),
        if_neg (show ¬(18 ≤ j ∧ j - 18 < 9) by omega),
        if_neg (show ¬(27 ≤ j ∧ j < 27 + 7) by omega),
        Nat.sub_zero, getD_take c2 9 j hj1]
      omega
    · by_cases hj2 : j < 18
      · rw [if_neg (show ¬(0 ≤ j ∧ j - 0 < 9) by omega),
          if_pos (show 9 ≤ j ∧ j - 9 < 9 from ⟨by omega, by omega⟩),
          if_neg (show ¬(18 ≤ j ∧ j - 18 < 9) by omega),
          if_neg (show ¬(27 ≤ j ∧ j < 27 + 7) by omega),
          getD_take (c2.drop 9) 9 (j - 9) (by omega), getD_drop c2 9 (j - 9)]
        have he : 9 + (j - 9) = j := by omega
        rw [he]
        omega
      · by_cases hj3 : j < 27
        · rw [if_neg (show ¬(0 ≤ j ∧ j - 0 < 9) by omega),
            if_neg (show ¬(9 ≤ j ∧ j - 9 < 9) by omega),
            if_pos (show 18 ≤ j ∧ j - 18 < 9 from ⟨by omega, by omega⟩),
            if_neg (show ¬(27 ≤ j ∧ j < 27 + 7) by omega),
            getD_take (c2.drop 18) 9 (j - 18) (by omega),
            getD_drop c2 18 (j - 18)]
          have he : 18 + (j - 18) = j := by omega
          rw [he]
          omega
        · by_cases hj4 : j < 34
          · rw [if_neg (show ¬(0 ≤ j ∧ j - 0 < 9) by omega),
              if_neg (show ¬(9 ≤ j ∧ j - 9 < 9) by omega),
              if_neg (show ¬(18 ≤ j ∧ j - 18 < 9) by omega),
              if_pos (show 27 ≤ j ∧ j < 27 + 7 from ⟨by omega, by omega⟩)]
            omega
          · rw [if_neg (show ¬(0 ≤ j ∧ j - 0 < 9) by omega),
              if_neg (show ¬(9 ≤ j ∧ j - 9 < 9) by omega),
              if_neg (show ¬(18 ≤ j ∧ j - 18 < 9) by omega),
              if_neg (show ¬(27 ≤ j ∧ j < 27 + 7) by omega),
              getD_zero_of_length_le c2 j (by omega)]

/-- A meld-only block list consuming exactly twelve tiles has four melds. -/
theorem melds_count (B : List Block) (hok : OkB B)
    (hm : ∀ b ∈ B, b.isMeld = true) (c2 : List Nat) (hlen : c2.length = 34)
    (huse : ∀ j, uses B j = c2.getD j 0) (hsum : c2.sum = 12) :
    mcount B = 4 ∧ tcount B = 0 ∧ pcount B = 0 := by
  have ht : tcount B = 0 := by
    rw [tcount, List.countP_eq_zero]
    intro b hb
    have := hm b hb
    cases b <;> simp_all [Block.isMeld, Block.isTaatsu]
  have hp : pcount B = 0 := by
    rw [pcount, List.countP_eq_zero]
    intro b hb
    have := hm b hb
    cases b <;> simp_all [Block.isMeld, Block.isPairH]
  have htot := uses_total B hok
  have hsum' : ∑ j in Finset.range 34, uses B j = c2.sum := by
    rw [listSum_eq_range c2, hlen]
    exact Finset.sum_congr rfl (fun j _ => huse j)
  rw [ht, hp] at htot
  refine ⟨?_, ht, hp⟩
  omega

/-- On a standard agari vector the removal loop of `shanten_standard`
reaches value 0 and no lower. -/
theorem agari_standard_zero (c : List Nat) (hlen : c.length = 34)
    (hagari : is_agari_standard c = true) : shanten_standard c = 0 := by
  obtain ⟨hsum, p, hp34, hp2, hh, hsu⟩ := agari_standard_inv c hagari
  have hplen : p < c.length := by omega
  have hlen2 : (c.set p (c.getD p 0 - 2)).length = 34 := by
    rw [List.length_set]; exact hlen
  have hsum2 : (c.set p (c.getD p 0 - 2)).sum = 12 := by
    rw [sum_set_sub c p 2 hplen hp2, hsum]
  obtain ⟨B, hok, hmel, huse⟩ := agari_blocks _ hlen2 hh hsu
  obtain ⟨hm4, ht0, hp0⟩ := melds_count B hok hmel _ hlen2 huse hsum2
  have hsd : (dec1 c p).sum = 13 := by
    rw [dec1, sum_set_sub c p 1 hplen (by omega), hsum]
  have hub : shanten_standard c ≤ 0 := by
    rw [shanten_standard, if_pos hsum]
    refine le_trans
      (loop_le_elem 34 0 8 c p (by omega) (by omega) hp34 (by omega)) ?_
    rw [shanten_standard, if_neg (by omega), _shanten_standard_general]
    have hfit : Fits B (dec1 c p) := by
      intro j
      rw [huse j]
      by_cases hj : j = p
      · subst hj
        rw [getD_set_self c j _ hplen, getD_dec1_self c j hplen]
        omega
      · rw [getD_set_ne c p j _ hj, getD_dec1_ne c p j hj]
    have hle := dfs_le_of_fits (dec1 c p).sum (dec1 c p) (le_refl _) B 0 0 0
      hfit hok (by omega) (by omega) (by omega)
    rw [hm4, ht0, hp0] at hle
    have hval : val (0 + 4) (0 + 0) (0 + 0) = 0 := by decide
    rw [hval] at hle
    exact hle
  have hlb : 0 ≤ shanten_standard c := by
    rw [shanten_standard, if_pos hsum]
    refine loop_ge 34 0 8 c 0 (by omega) (by omega) ?_
    intro j hij hj34 hpos
    have hsdj : (dec1 c j).sum = 13 := by
      rw [dec1, sum_set_sub c j 1 (by omega) (by omega), hsum]
    rw [shanten_standard, if_neg (by omega), _shanten_standard_general]
    exact general_nonneg (dec1 c j) (by rw [length_dec1]; exact hlen)
      (by omega)
  omega

end Mahjong

namespace Mahjong

/-- C2 witness: a genuine seven-pairs vector, removing a tile of the
first pair. -/
theorem C2_witness :
    (is_agari_chiitoitsu ([2, 2, 2, 2, 2, 2, 2] ++ List.replicate 27 0) = true ∧
      (∀ x ∈ [2, 2, 2, 2, 2, 2, 2] ++ List.replicate 27 0, x ≤ 2) ∧
      0 < ([2, 2, 2, 2, 2, 2, 2] ++ List.replicate 27 0).getD 0 0) ∧
    shanten_chiitoitsu (dec1 ([2, 2, 2, 2, 2, 2, 2] ++ List.replicate 27 0) 0) = 0 :=
  ⟨⟨by decide, by decide, by decide⟩,
    C2_seven_pairs_tenpai ([2, 2, 2, 2, 2, 2, 2] ++ List.replicate 27 0) 0
      (by decide) (by decide) (by decide)⟩

/-- C3 (amended): on a 34-slot vector, all three shanten values and their
minimum are non-negative when the total is 13; the standard value is
non-negative when the total is 14; and a standard agari vector gets
standard shanten exactly 0.  (The seven-pairs and thirteen-orphans values
can be −1 on 14-tile vectors: see the counterexample.) -/
theorem C3_shanten_bounds (c : List Nat) (hlen : c.length = 34) :
    (c.sum = 13 → 0 ≤ shanten_standard c ∧ 0 ≤ shanten_chiitoitsu c ∧
      0 ≤ shanten_kokushi c ∧
      0 ≤ min (shanten_standard c)
        (min (shanten_chiitoitsu c) (shanten_kokushi c))) ∧
    (c.sum = 14 → 0 ≤ shanten_standard c) ∧
    (c.sum = 14 → is_agari_standard c = true → shanten_standard c = 0) := by
  refine ⟨?_, ?_, ?_⟩
  · intro hsum
    have hstd : 0 ≤ shanten_standard c := by
      rw [shanten_standard, if_neg (by omega), _shanten_standard_general]
      exact general_nonneg c hlen (by omega)
    have hchi : 0 ≤ shanten_chiitoitsu c := chiitoitsu_nonneg c (by omega)
    have hkok : 0 ≤ shanten_kokushi c := kokushi_nonneg c hlen hsum
    exact ⟨hstd, hchi, hkok, le_min hstd (le_min hchi hkok)⟩
  · intro hsum
    rw [shanten_standard, if_pos hsum]
    refine loop_ge 34 0 8 c 0 (by omega) (by omega) ?_
    intro j hij hj34 hpos
    have hsdj : (dec1 c j).sum = 13 := by
      rw [dec1, sum_set_sub c j 1 (lt_length_of_getD_pos c j hpos) (by omega),
        hsum]
    rw [shanten_standard, if_neg (by omega), _shanten_standard_general]
    exact general_nonneg (dec1 c j) (by rw [length_dec1]; exact hlen) (by omega)
  · intro _ hagari
    exact agari_standard_zero c hlen hagari

/-- C3 witness: a concrete 13-tile vector. -/
theorem C3_witness :
    ([2, 2, 2, 2, 2, 2, 1] ++ List.replicate 27 0).length = 34 ∧
    ((([2, 2, 2, 2, 2, 2, 1] ++ List.replicate 27 0).sum = 13 →
      0 ≤ shanten_standard ([2, 2, 2, 2, 2, 2, 1] ++ List.replicate 27 0) ∧
      0 ≤ shanten_chiitoitsu ([2, 2, 2, 2, 2, 2, 1] ++ List.replicate 27 0) ∧
      0 ≤ shanten_kokushi ([2, 2, 2, 2, 2, 2, 1] ++ List.replicate 27 0) ∧
      0 ≤ min (shanten_standard ([2, 2, 2, 2, 2, 2, 1] ++ List.replicate 27 0))
        (min (shanten_chiitoitsu ([2, 2, 2, 2, 2, 2, 1] ++ List.replicate 27 0))
          (shanten_kokushi ([2, 2, 2, 2, 2, 2, 1] ++ List.replicate 27 0)))) ∧
    (([2, 2, 2, 2, 2, 2, 1] ++ List.replicate 27 0).sum = 14 →
      0 ≤ shanten_standard ([2, 2, 2, 2, 2, 2, 1] ++ List.replicate 27 0)) ∧
    (([2, 2, 2, 2, 2, 2, 1] ++ List.replicate 27 0).sum = 14 →
      is_agari_standard ([2, 2, 2, 2, 2, 2, 1] ++ List.replicate 27 0) = true →
      shanten_standard ([2, 2, 2, 2, 2, 2, 1] ++ List.replicate 27 0) = 0)) :=
  ⟨rfl, C3_shanten_bounds ([2, 2, 2, 2, 2, 2, 1] ++ List.replicate 27 0) rfl⟩

end Mahjong

namespace Mahjong

theorem exists_mem_uses_pos (B : List Block) (t : Nat) (h : 0 < uses B t) :
    ∃ b ∈ B, 0 < b.uses t := by
  induction B with
  | nil => simp [uses] at h
  | cons b B ih =>
    rw [uses_cons] at h
    by_cases hb : 0 < b.uses t
    · exact ⟨b, by simp, hb⟩
    · obtain ⟨b', hb', hp⟩ := ih (by omega)
      exact ⟨b', by simp [hb'], hp⟩

/-- Replacing the marked block of a split list: the candidate list keeps
every bound, uses no more of any tile, strictly fewer of tile `t`, and
costs at most one shanten point. -/
theorem transform_generic (B1 B2 rep : List Block) (b : Block) (t : Nat)
    (hok : OkB (B1 ++ b :: B2)) (hrepok : OkB rep)
    (hdom : ∀ j, uses rep j ≤ b.uses j) (hlt : uses rep t < b.uses t)
    (hm' : mcount (B1 ++ (rep ++ B2)) ≤ 4)
    (ht' : tcount (B1 ++ (rep ++ B2)) ≤ 4)
    (hp' : pcount (B1 ++ (rep ++ B2)) ≤ 1)
    (hval : val (mcount (B1 ++ (rep ++ B2))) (tcount (B1 ++ (rep ++ B2)))
        (pcount (B1 ++ (rep ++ B2))) ≤
      val (mcount (B1 ++ b :: B2)) (tcount (B1 ++ b :: B2))
        (pcount (B1 ++ b :: B2)) + 1) :
    ∃ B' : List Block, OkB B' ∧ mcount B' ≤ 4 ∧ tcount B' ≤ 4 ∧
      pcount B' ≤ 1 ∧ (∀ j, uses B' j ≤ uses (B1 ++ b :: B2) j) ∧
      uses B' t < uses (B1 ++ b :: B2) t ∧
      val (mcount B') (tcount B') (pcount B') ≤
        val (mcount (B1 ++ b :: B2)) (tcount (B1 ++ b :: B2))
          (pcount (B1 ++ b :: B2)) + 1 := by
  refine ⟨B1 ++ (rep ++ B2), ?_, hm', ht', hp', ?_, ?_, hval⟩
  · intro x hx
    rcases List.mem_append.mp hx with hx | hx
    · exact hok x (List.mem_append.mpr (Or.inl hx))
    · rcases List.mem_append.mp hx with hx | hx
      · exact hrepok x hx
      · exact hok x (List.mem_append.mpr (Or.inr (List.mem_cons.mpr (Or.inr hx))))
  · intro j
    rw [uses_append, uses_append, uses_append, uses_cons]
    have := hdom j
    omega
  · rw [uses_append, uses_append, uses_append, uses_cons]
    omega

/-- Some block of a bounded fitting family that touches tile `t` can be
dropped or downgraded at a cost of at most one shanten point. -/
theorem exists_transform (B : List Block) (t : Nat) (hok : OkB B)
    (hm : mcount B ≤ 4) (ht4 : tcount B ≤ 4) (hp1 : pcount B ≤ 1)
    (hpos : 0 < uses B t) :
    ∃ B' : List Block, OkB B' ∧ mcount B' ≤ 4 ∧ tcount B' ≤ 4 ∧
      pcount B' ≤ 1 ∧ (∀ j, uses B' j ≤ uses B j) ∧ uses B' t < uses B t ∧
      val (mcount B') (tcount B') (pcount B') ≤
        val (mcount B) (tcount B) (pcount B) + 1 := by
  obtain ⟨b, hbmem, hbpos⟩ := exists_mem_uses_pos B t hpos
  have hbok : b.ok := hok b hbmem
  obtain ⟨B1, B2, rfl⟩ := List.append_of_mem hbmem
  cases b with
  | tri i =>
    obtain rfl : t = i := by
      by_contra hne
      simp [Block.uses, hne] at hbpos
    by_cases htc : tcount (B1 ++ B2) ≤ 3
    · refine transform_generic B1 B2 [Block.ta2 t] (Block.tri t) t hok
        ?_ ?_ ?_ ?_ ?_ ?_ ?_
      · intro x hx
        obtain rfl := List.mem_singleton.mp hx
        exact (hbok : t < 34)
      · intro j
        rw [uses_cons, uses_nil]
        simp only [Block.uses]
        split_ifs <;> omega
      · rw [uses_cons, uses_nil]
        simp only [Block.uses]
        split_ifs <;> omega
      · simp [mcount, Block.isMeld] at hm ⊢
        omega
      · simp [tcount, Block.isTaatsu] at ht4 htc ⊢
        omega
      · simp [pcount, Block.isPairH] at hp1 ⊢
        omega
      · simp [mcount, tcount, pcount, Block.isMeld, Block.isTaatsu,
          Block.isPairH] at htc hm ⊢
        unfold val
        simp only [Nat.min_def]
        split_ifs <;> omega
    · refine transform_generic B1 B2 [] (Block.tri t) t hok
        (fun x hx => by simp at hx) (fun j => by simp [uses]) ?_ ?_ ?_ ?_ ?_
      · rw [uses_nil]
        simp only [Block.uses]
        split_ifs <;> omega
      · simp [mcount, Block.isMeld] at hm ⊢
        omega
      · simp [tcount, Block.isTaatsu] at ht4 ⊢
        omega
      · simp [pcount, Block.isPairH] at hp1 ⊢
        omega
      · simp [mcount, tcount, pcount, Block.isMeld, Block.isTaatsu,
          Block.isPairH] at htc hm ht4 ⊢
        unfold val
        simp only [Nat.min_def]
        split_ifs <;> omega
  | run i =>
    have htpos : t = i ∨ t = i + 1 ∨ t = i + 2 := by
      by_contra hne
      push_neg at hne
      simp [Block.uses, hne.1, hne.2.1, hne.2.2] at hbpos
    have hok1 : i < 27 ∧ i % 9 ≤ 6 := hbok
    by_cases htc : tcount (B1 ++ B2) ≤ 3
    · have hcommon : ∀ rep1 : Block, rep1.isTaatsu = true →
        rep1.isMeld = false → rep1.isPairH = false → True := fun _ _ _ _ => trivial
      rcases htpos with h | h | h
      · refine transform_generic B1 B2 [Block.taA (i + 1)] (Block.run i) t hok
          ?_ ?_ ?_ ?_ ?_ ?_ ?_
        · intro x hx
          obtain rfl := List.mem_singleton.mp hx
          show i + 1 < 27 ∧ (i + 1) % 9 ≤ 7
          omega
        · intro j
          rw [uses_cons, uses_nil]
          simp only [Block.uses]
          split_ifs <;> omega
        · rw [uses_cons, uses_nil]
          simp only [Block.uses]
          split_ifs <;> omega
        · simp [mcount, Block.isMeld] at hm ⊢
          omega
        · simp [tcount, Block.isTaatsu] at ht4 htc ⊢
          omega
        · simp [pcount, Block.isPairH] at hp1 ⊢
          omega
        · simp [mcount, tcount, pcount, Block.isMeld, Block.isTaatsu,
            Block.isPairH] at htc hm ⊢
          unfold val
          simp only [Nat.min_def]
          split_ifs <;> omega
      · refine transform_generic B1 B2 [Block.taG i] (Block.run i) t hok
          ?_ ?_ ?_ ?_ ?_ ?_ ?_
        · intro x hx
          obtain rfl := List.mem_singleton.mp hx
          show i < 27 ∧ i % 9 ≤ 6
          omega
        · intro j
          rw [uses_cons, uses_nil]
          simp only [Block.uses]
          split_ifs <;> omega
        · rw [uses_cons, uses_nil]
          simp only [Block.uses]
          split_ifs <;> omega
        · simp [mcount, Block.isMeld] at hm ⊢
          omega
        · simp [tcount, Block.isTaatsu] at ht4 htc ⊢
          omega
        · simp [pcount, Block.isPairH] at hp1 ⊢
          omega
        · simp [mcount, tcount, pcount, Block.isMeld, Block.isTaatsu,
            Block.isPairH] at htc hm ⊢
          unfold val
          simp only [Nat.min_def]
          split_ifs <;> omega
      · refine transform_generic B1 B2 [Block.taA i] (Block.run i) t hok
          ?_ ?_ ?_ ?_ ?_ ?_ ?_
        · intro x hx
          obtain rfl := List.mem_singleton.mp hx
          show i < 27 ∧ i % 9 ≤ 7
          omega
        · intro j
          rw [uses_cons, uses_nil]
          simp only [Block.uses]
          split_ifs <;> omega
        · rw [uses_cons, uses_nil]
          simp only [Block.uses]
          split_ifs <;> omega
        · simp [mcount, Block.isMeld] at hm ⊢
          omega
        · simp [tcount, Block.isTaatsu] at ht4 htc ⊢
          omega
        · simp [pcount, Block.isPairH] at hp1 ⊢
          omega
        · simp [mcount, tcount, pcount, Block.isMeld, Block.isTaatsu,
            Block.isPairH] at htc hm ⊢
          unfold val
          simp only [Nat.min_def]
          split_ifs <;> omega
    · refine transform_generic B1 B2 [] (Block.run i) t hok
        (fun x hx => by simp at hx) (fun j => by simp [uses]) ?_ ?_ ?_ ?_ ?_
      · rw [uses_nil]
        simp only [Block.uses] at hbpos ⊢
        omega
      · simp [mcount, Block.isMeld] at hm ⊢
        omega
      · simp [tcount, Block.isTaatsu] at ht4 ⊢
        omega
      · simp [pcount, Block.isPairH] at hp1 ⊢
        omega
      · simp [mcount, tcount, pcount, Block.isMeld, Block.isTaatsu,
          Block.isPairH] at htc hm ht4 ⊢
        unfold val
        simp only [Nat.min_def]
        split_ifs <;> omega
  | pairH i =>
    refine transform_generic B1 B2 [] (Block.pairH i) t hok
      (fun x hx => by simp at hx) (fun j => by simp [uses]) ?_ ?_ ?_ ?_ ?_
    · rw [uses_nil]
      simp only [Block.uses] at hbpos ⊢
      omega
    · simp [mcount, Block.isMeld] at hm ⊢
      omega
    · simp [tcount, Block.isTaatsu] at ht4 ⊢
      omega
    · simp [pcount, Block.isPairH] at hp1 ⊢
      omega
    · simp [mcount, tcount, pcount, Block.isMeld, Block.isTaatsu,
        Block.isPairH] at hp1 ⊢
      unfold val
      simp only [Nat.min_def]
      split_ifs <;> omega
  | ta2 i =>
    refine transform_generic B1 B2 [] (Block.ta2 i) t hok
      (fun x hx => by simp at hx) (fun j => by simp [uses]) ?_ ?_ ?_ ?_ ?_
    · rw [uses_nil]
      simp only [Block.uses] at hbpos ⊢
      omega
    · simp [mcount, Block.isMeld] at hm ⊢
      omega
    · simp [tcount, Block.isTaatsu] at ht4 ⊢
      omega
    · simp [pcount, Block.isPairH] at hp1 ⊢
      omega
    · simp [mcount, tcount, pcount, Block.isMeld, Block.isTaatsu,
        Block.isPairH] at hm ⊢
      unfold val
      simp only [Nat.min_def]
      split_ifs <;> omega
  | taA i =>
    refine transform_generic B1 B2 [] (Block.taA i) t hok
      (fun x hx => by simp at hx) (fun j => by simp [uses]) ?_ ?_ ?_ ?_ ?_
    · rw [uses_nil]
      simp only [Block.uses] at hbpos ⊢
      omega
    · simp [mcount, Block.isMeld] at hm ⊢
      omega
    · simp [tcount, Block.isTaatsu] at ht4 ⊢
      omega
    · simp [pcount, Block.isPairH] at hp1 ⊢
      omega
    · simp [mcount, tcount, pcount, Block.isMeld, Block.isTaatsu,
        Block.isPairH] at hm ⊢
      unfold val
      simp only [Nat.min_def]
      split_ifs <;> omega
  | taG i =>
    refine transform_generic B1 B2 [] (Block.taG i) t hok
      (fun x hx => by simp at hx) (fun j => by simp [uses]) ?_ ?_ ?_ ?_ ?_
    · rw [uses_nil]
      simp only [Block.uses] at hbpos ⊢
      omega
    · simp [mcount, Block.isMeld] at hm ⊢
      omega
    · simp [tcount, Block.isTaatsu] at ht4 ⊢
      omega
    · simp [pcount, Block.isPairH] at hp1 ⊢
      omega
    · simp [mcount, tcount, pcount, Block.isMeld, Block.isTaatsu,
        Block.isPairH] at hm ⊢
      unfold val
      simp only [Nat.min_def]
      split_ifs <;> omega

end Mahjong

namespace Mahjong

/-- Exchanging which tile is removed from a vector changes the general
search value by at most one. -/
theorem general_replace (d : List Nat) (hlen : d.length = 34) (s t : Nat)
    (hs : 0 < d.getD s 0) (ht : 0 < d.getD t 0) :
    dfs (dec1 d t) 0 0 0 ≤ dfs (dec1 d s) 0 0 0 + 1 := by
  by_cases hst : s = t
  · subst hst
    omega
  · have h2 := le_dfs_of_forall (dec1 d s).sum (dec1 d s) (le_refl _)
      (by rw [length_dec1]; exact hlen) 0 0 0 (dfs (dec1 d t) 0 0 0 - 1)
      (by omega) (by omega) (by omega) ?_
    · omega
    · intro B hfit hok hm ht4 hp4
      simp only [Nat.zero_add] at hm ht4 hp4 ⊢
      by_cases hcover : uses B t < d.getD t 0
      · have hfit' : Fits B (dec1 d t) := by
          intro j
          by_cases hj : j = t
          · subst hj
            rw [getD_dec1_self d j (lt_length_of_getD_pos d j ht)]
            omega
          · rw [getD_dec1_ne d t j hj]
            have h1 := hfit j
            have h3 := getD_dec1_le d s j
            omega
        have hT1 := dfs_le_of_fits (dec1 d t).sum (dec1 d t) (le_refl _)
          B 0 0 0 hfit' hok (by omega) (by omega) (by omega)
        simp only [Nat.zero_add] at hT1
        omega
      · have hposu : 0 < uses B t := by
          have h1 := hfit t
          have h3 : (dec1 d s).getD t 0 = d.getD t 0 :=
            getD_dec1_ne d s t (fun h => hst h.symm)
          omega
        obtain ⟨B', hok', hm', ht4', hp4', hdom, hltu, hval⟩ :=
          exists_transform B t hok hm ht4 hp4 hposu
        have hfit' : Fits B' (dec1 d t) := by
          intro j
          by_cases hj : j = t
          · subst hj
            rw [getD_dec1_self d j (lt_length_of_getD_pos d j ht)]
            have h1 := hfit j
            have h3 : (dec1 d s).getD j 0 = d.getD j 0 :=
              getD_dec1_ne d s j (fun h => hst h.symm)
            omega
          · rw [getD_dec1_ne d t j hj]
            have h1 := hfit j
            have h3 := getD_dec1_le d s j
            have h4 := hdom j
            omega
        have hT1 := dfs_le_of_fits (dec1 d t).sum (dec1 d t) (le_refl _)
          B' 0 0 0 hfit' hok' (by omega) (by omega) (by omega)
        simp only [Nat.zero_add] at hT1
        omega

/-- C4: adding a tile to a 13-tile vector cannot increase the standard
shanten value; removing a tile from a 14-tile vector increases it by at
most one. -/
theorem C4_shanten_monotone (c d : List Nat) (t u : Nat)
    (hclen : c.length = 34) (hcsum : c.sum = 13) (hct : c.getD t 0 < 4)
    (hdlen : d.length = 34) (hdsum : d.sum = 14) (hdu : 0 < d.getD u 0) :
    shanten_standard (c.set t (c.getD t 0 + 1)) ≤ shanten_standard c ∧
    shanten_standard (dec1 d u) ≤ shanten_standard d + 1 := by
  constructor
  · by_cases htl : t < c.length
    · have hsum2 : (c.set t (c.getD t 0 + 1)).sum = 14 := by
        have := sum_set_add c t (c.getD t 0 + 1) htl
        omega
      rw [shanten_standard, if_pos hsum2]
      have hpos2 : 0 < (c.set t (c.getD t 0 + 1)).getD t 0 := by
        rw [getD_set_self c t _ htl]
        omega
      refine le_trans
        (loop_le_elem 34 0 8 _ t (by omega) (by omega) (by omega) hpos2) ?_
      have hrestore : dec1 (c.set t (c.getD t 0 + 1)) t = c := by
        rw [dec1, getD_set_self c t _ htl, List.set_set]
        have h1 : c.getD t 0 + 1 - 1 = c.getD t 0 := by omega
        rw [h1, set_getD_self]
      rw [hrestore]
    · rw [set_of_length_le c t _ (by omega)]
  · have hul : u < d.length := lt_length_of_getD_pos d u hdu
    have hsum2 : (dec1 d u).sum = 13 := by
      rw [dec1, sum_set_sub d u 1 hul (by omega), hdsum]
    have hL : shanten_standard (dec1 d u) = dfs (dec1 d u) 0 0 0 := by
      rw [shanten_standard, if_neg (by omega)]
      rfl
    have hR : shanten_standard d = shantenRemovalLoop 0 8 d := by
      rw [shanten_standard, if_pos hdsum]
    rw [hL, hR]
    have hbound : dfs (dec1 d u) 0 0 0 ≤ 8 := by
      have h1 := dfs_le_val (dec1 d u) 0 0 0 (by omega)
      have h2 : val 0 0 0 = 8 := by decide
      omega
    have hG := loop_ge 34 0 8 d (dfs (dec1 d u) 0 0 0 - 1) (by omega)
      (by omega) ?_
    · omega
    · intro j hij hj34 hpos
      have hr : shanten_standard (dec1 d j) = dfs (dec1 d j) 0 0 0 := by
        have h1 : (dec1 d j).sum = 13 := by
          rw [dec1, sum_set_sub d j 1 (lt_length_of_getD_pos d j hpos)
            (by omega), hdsum]
        rw [shanten_standard, if_neg (by omega)]
        rfl
      rw [hr]
      have := general_replace d hdlen j u hpos hdu
      omega

/-- C4 witness: a concrete 13-tile and 14-tile vector. -/
theorem C4_witness :
    (([2, 2, 2, 2, 2, 2, 1] ++ List.replicate 27 0).length = 34 ∧
      ([2, 2, 2, 2, 2, 2, 1] ++ List.replicate 27 0).sum = 13 ∧
      ([2, 2, 2, 2, 2, 2, 1] ++ List.replicate 27 0).getD 6 0 < 4 ∧
      ([2, 2, 2, 2, 2, 2, 2] ++ List.replicate 27 0).length = 34 ∧
      ([2, 2, 2, 2, 2, 2, 2] ++ List.replicate 27 0).sum = 14 ∧
      0 < ([2, 2, 2, 2, 2, 2, 2] ++ List.replicate 27 0).getD 0 0) ∧
    (shanten_standard (([2, 2, 2, 2, 2, 2, 1] ++ List.replicate 27 0).set 6
        (([2, 2, 2, 2, 2, 2, 1] ++ List.replicate 27 0).getD 6 0 + 1)) ≤
      shanten_standard ([2, 2, 2, 2, 2, 2, 1] ++ List.replicate 27 0) ∧
    shanten_standard (dec1 ([2, 2, 2, 2, 2, 2, 2] ++ List.replicate 27 0) 0) ≤
      shanten_standard ([2, 2, 2, 2, 2, 2, 2] ++ List.replicate 27 0) + 1) :=
  ⟨⟨rfl, by decide, by decide, rfl, by decide, by decide⟩,
    C4_shanten_monotone ([2, 2, 2, 2, 2, 2, 1] ++ List.replicate 27 0)
      ([2, 2, 2, 2, 2, 2, 2] ++ List.replicate 27 0) 6 0 rfl (by decide)
      (by decide) rfl (by decide) (by decide)⟩

end Mahjong

namespace Mahjong

theorem suit_meldable_none (c9 : List Nat) (hz : firstNZ c9 = none) :
    _suit_meldable c9 = true := by
  rw [_suit_meldable]
  split
  · rfl
  · rename_i i heq
    rw [hz] at heq
    exact Option.noConfusion heq

theorem suit_meldable_some (c9 : List Nat) (i : Nat)
    (hz : firstNZ c9 = some i) : _suit_meldable c9 =
      ((if 3 ≤ c9.getD i 0 then
        _suit_meldable (c9.set i (c9.getD i 0 - 3)) else false) ||
      (if i ≤ 6 ∧ 0 < c9.getD (i + 1) 0 ∧ 0 < c9.getD (i + 2) 0 then
        _suit_meldable (dec1 (dec1 (dec1 c9 i) (i + 1)) (i + 2)) else false)) := by
  rw [_suit_meldable]
  split
  · rename_i heq
    rw [hz] at heq
    exact Option.noConfusion heq
  · rename_i i' heq
    rw [hz] at heq
    obtain rfl : i' = i := by injection heq with h; exact h.symm
    rfl

theorem suitMeldableF_none (fuel : Nat) (c9 : List Nat)
    (hz : firstNZ c9 = none) : suitMeldableF fuel c9 = true := by
  rw [suitMeldableF, hz]

theorem suitMeldableF_some (fuel : Nat) (c9 : List Nat) (i : Nat)
    (hz : firstNZ c9 = some i) : suitMeldableF (fuel + 1) c9 =
      ((if 3 ≤ c9.getD i 0 then
        suitMeldableF fuel (c9.set i (c9.getD i 0 - 3)) else false) ||
      (if i ≤ 6 ∧ 0 < c9.getD (i + 1) 0 ∧ 0 < c9.getD (i + 2) 0 then
        suitMeldableF fuel (dec1 (dec1 (dec1 c9 i) (i + 1)) (i + 2))
      else false)) := by
  rw [suitMeldableF, hz]

theorem suitMeldableF_eq (fuel : Nat) : ∀ (c9 : List Nat), c9.sum ≤ fuel →
    suitMeldableF fuel c9 = _suit_meldable c9 := by
  induction fuel with
  | zero =>
    intro c9 hs
    cases hz : firstNZ c9 with
    | none => rw [suitMeldableF_none 0 c9 hz, suit_meldable_none c9 hz]
    | some i =>
      have := firstNZ_some_pos c9 i hz
      have := getD_le_sum c9 i
      omega
  | succ fuel ih =>
    intro c9 hs
    cases hz : firstNZ c9 with
    | none => rw [suitMeldableF_none _ c9 hz, suit_meldable_none c9 hz]
    | some i =>
      have hpos := firstNZ_some_pos c9 i hz
      rw [suitMeldableF_some fuel c9 i hz, suit_meldable_some c9 i hz]
      have e1 : (if 3 ≤ c9.getD i 0 then
          suitMeldableF fuel (c9.set i (c9.getD i 0 - 3)) else false) =
          (if 3 ≤ c9.getD i 0 then
          _suit_meldable (c9.set i (c9.getD i 0 - 3)) else false) := by
        split_ifs with h3
        · refine ih _ ?_
          have := sum_setsub_lt c9 i 3 (by omega) hpos
          omega
        · rfl
      have e2 : (if i ≤ 6 ∧ 0 < c9.getD (i + 1) 0 ∧ 0 < c9.getD (i + 2) 0 then
          suitMeldableF fuel (dec1 (dec1 (dec1 c9 i) (i + 1)) (i + 2))
          else false) =
          (if i ≤ 6 ∧ 0 < c9.getD (i + 1) 0 ∧ 0 < c9.getD (i + 2) 0 then
          _suit_meldable (dec1 (dec1 (dec1 c9 i) (i + 1)) (i + 2))
          else false) := by
        split_ifs with h3
        · refine ih _ ?_
          have s1 := sum_dec1_le (dec1 (dec1 c9 i) (i + 1)) (i + 2)
          have s2 := sum_dec1_le (dec1 c9 i) (i + 1)
          have s3 := sum_dec1_lt c9 i hpos
          omega
        · rfl
      rw [e1, e2]

theorem suitsOkF_eq (c : List Nat) : suitsOkF c = _suits_ok c := by
  rw [suitsOkF, _suits_ok, suitMeldableF_eq _ _ (le_refl _),
    suitMeldableF_eq _ _ (le_refl _), suitMeldableF_eq _ _ (le_refl _)]

theorem isAgariStandardF_eq (c : List Nat) :
    isAgariStandardF c = is_agari_standard c := by
  rw [isAgariStandardF, is_agari_standard]
  simp only [suitsOkF_eq]

theorem decomposeRec_none (p : Nat) (m : List Meld) (c : List Nat)
    (hz : firstNZ c = none) : decomposeRec p m c =
      if m.length = 4 then [⟨p, m⟩] else [] := by
  rw [decomposeRec]
  split
  · rfl
  · rename_i i heq
    rw [hz] at heq
    exact Option.noConfusion heq

theorem decomposeRec_some (p : Nat) (m : List Meld) (c : List Nat) (i : Nat)
    (hz : firstNZ c = some i) : decomposeRec p m c =
      if 4 < m.length then []
      else
        (if 3 ≤ c.getD i 0 then
          decomposeRec p (m ++ [⟨MeldKind.pon, false, (i, i, i)⟩])
            (c.set i (c.getD i 0 - 3))
        else []) ++
        (if i ≤ 26 ∧ i % 9 ≤ 6 ∧ 0 < c.getD (i + 1) 0 ∧ 0 < c.getD (i + 2) 0 then
          decomposeRec p (m ++ [⟨MeldKind.chi, false, (i, i + 1, i + 2)⟩])
            (dec1 (dec1 (dec1 c i) (i + 1)) (i + 2))
        else []) := by
  rw [decomposeRec]
  split
  · rename_i heq
    rw [hz] at heq
    exact Option.noConfusion heq
  · rename_i i' heq
    rw [hz] at heq
    obtain rfl : i' = i := by injection heq with h; exact h.symm
    rfl

theorem decomposeRecF_some (fuel : Nat) (p : Nat) (m : List Meld)
    (c : List Nat) (i : Nat) (hz : firstNZ c = some i) :
    decomposeRecF (fuel + 1) p m c =
      if 4 < m.length then []
      else
        (if 3 ≤ c.getD i 0 then
          decomposeRecF fuel p (m ++ [⟨MeldKind.pon, false, (i, i, i)⟩])
            (c.set i (c.getD i 0 - 3))
        else []) ++
        (if i ≤ 26 ∧ i % 9 ≤ 6 ∧ 0 < c.getD (i + 1) 0 ∧ 0 < c.getD (i + 2) 0 then
          decomposeRecF fuel p (m ++ [⟨MeldKind.chi, false, (i, i + 1, i + 2)⟩])
            (dec1 (dec1 (dec1 c i) (i + 1)) (i + 2))
        else []) := by
  rw [decomposeRecF, hz]

theorem decomposeRecF_eq (fuel : Nat) : ∀ (c : List Nat), c.sum ≤ fuel →
    ∀ (p : Nat) (m : List Meld), decomposeRecF fuel p m c = decomposeRec p m c := by
  induction fuel with
  | zero =>
    intro c hs p m
    cases hz : firstNZ c with
    | none =>
      rw [decomposeRecF, hz, decomposeRec_none p m c hz]
    | some i =>
      have := firstNZ_some_pos c i hz
      have := getD_le_sum c i
      omega
  | succ fuel ih =>
    intro c hs p m
    cases hz : firstNZ c with
    | none =>
      rw [decomposeRecF, hz, decomposeRec_none p m c hz]
    | some i =>
      have hpos := firstNZ_some_pos c i hz
      rw [decomposeRecF_some fuel p m c i hz, decomposeRec_some p m c i hz]
      have e1 : (if 3 ≤ c.getD i 0 then
          decomposeRecF fuel p (m ++ [⟨MeldKind.pon, false, (i, i, i)⟩])
            (c.set i (c.getD i 0 - 3)) else []) =
          (if 3 ≤ c.getD i 0 then
          decomposeRec p (m ++ [⟨MeldKind.pon, false, (i, i, i)⟩])
            (c.set i (c.getD i 0 - 3)) else []) := by
        split_ifs with h3
        · refine ih _ ?_ _ _
          have := sum_setsub_lt c i 3 (by omega) hpos
          omega
        · rfl
      have e2 : (if i ≤ 26 ∧ i % 9 ≤ 6 ∧ 0 < c.getD (i + 1) 0 ∧ 0 < c.getD (i + 2) 0 then
          decomposeRecF fuel p (m ++ [⟨MeldKind.chi, false, (i, i + 1, i + 2)⟩])
            (dec1 (dec1 (dec1 c i) (i + 1)) (i + 2)) else []) =
          (if i ≤ 26 ∧ i % 9 ≤ 6 ∧ 0 < c.getD (i + 1) 0 ∧ 0 < c.getD (i + 2) 0 then
          decomposeRec p (m ++ [⟨MeldKind.chi, false, (i, i + 1, i + 2)⟩])
            (dec1 (dec1 (dec1 c i) (i + 1)) (i + 2)) else []) := by
        split_ifs with h3
        · refine ih _ ?_ _ _
          have s1 := sum_dec1_le (dec1 (dec1 c i) (i + 1)) (i + 2)
          have s2 := sum_dec1_le (dec1 c i) (i + 1)
          have s3 := sum_dec1_lt c i hpos
          omega
        · rfl
      rw [e1, e2]

theorem decomposeRec_as_F (p : Nat) (m : List Meld) (c : List Nat) :
    decomposeRec p m c = decomposeRecF c.sum p m c :=
  (decomposeRecF_eq c.sum c (le_refl _) p m).symm

end Mahjong

namespace Mahjong

theorem meldsCount_append (a b : List Meld) (j : Nat) :
    meldsCount (a ++ b) j = meldsCount a j + meldsCount b j := by
  simp [meldsCount]

/-- Invariant of the decomposition recursion: every emitted decomposition
carries the given pair index, exactly four melds, and its meld tiles
account for the accumulator plus the remaining vector. -/
theorem decomposeRec_spec (n : Nat) : ∀ (c : List Nat), c.sum ≤ n →
    ∀ (pair_idx : Nat) (melds : List Meld) (d : Decomposition),
    d ∈ decomposeRec pair_idx melds c →
    d.pair = pair_idx ∧ d.melds.length = 4 ∧
    ∀ j : Nat, meldsCount d.melds j = meldsCount melds j + c.getD j 0 := by
  induction n with
  | zero =>
    intro c hs pair_idx melds d hmem
    have hz : firstNZ c = none := by
      cases hz : firstNZ c with
      | none => rfl
      | some i =>
        have := firstNZ_some_pos c i hz
        have := getD_le_sum c i
        omega
    rw [decomposeRec_none pair_idx melds c hz] at hmem
    split_ifs at hmem with h4
    · obtain rfl := List.mem_singleton.mp hmem
      refine ⟨rfl, h4, ?_⟩
      intro j
      have hz0 : c.getD j 0 = 0 := by
        have := getD_le_sum c j
        omega
      rw [hz0]
      rfl
    · simp at hmem
  | succ n ih =>
    intro c hs pair_idx melds d hmem
    cases hz : firstNZ c with
    | none =>
      rw [decomposeRec_none pair_idx melds c hz] at hmem
      split_ifs at hmem with h4
      · obtain rfl := List.mem_singleton.mp hmem
        refine ⟨rfl, h4, ?_⟩
        intro j
        rw [firstNZ_none c hz j]
        rfl
      · simp at hmem
    | some i =>
      have hpos := firstNZ_some_pos c i hz
      have hil : i < c.length := firstNZ_lt_length c i hz
      rw [decomposeRec_some pair_idx melds c i hz] at hmem
      by_cases h4 : 4 < melds.length
      · rw [if_pos h4] at hmem
        simp at hmem
      · rw [if_neg h4] at hmem
        rcases List.mem_append.mp hmem with hmem1 | hmem2
        · by_cases h3 : 3 ≤ c.getD i 0
          · rw [if_pos h3] at hmem1
            obtain ⟨hp, hlen, hcnt⟩ := ih (c.set i (c.getD i 0 - 3))
              (by have := sum_setsub_lt c i 3 (by omega) hpos; omega)
              pair_idx _ d hmem1
            refine ⟨hp, hlen, ?_⟩
            intro j
            have := hcnt j
            rw [meldsCount_append] at this
            have htrip : meldsCount [⟨MeldKind.pon, false, (i, i, i)⟩] j =
                if i = j then 3 else 0 := by
              simp [meldsCount, tripleCount]
              split_ifs <;> omega
            rw [htrip] at this
            by_cases hj : j = i
            · subst hj
              rw [getD_set_self c j _ hil] at this
              rw [this]
              split_ifs <;> omega
            · rw [getD_set_ne c i j _ hj] at this
              rw [this]
              split_ifs <;> omega
          · rw [if_neg h3] at hmem1
            simp at hmem1
        · by_cases h3 : i ≤ 26 ∧ i % 9 ≤ 6 ∧ 0 < c.getD (i + 1) 0 ∧ 0 < c.getD (i + 2) 0
          · rw [if_pos h3] at hmem2
            have hp1 : 0 < c.getD (i + 1) 0 := h3.2.2.1
            have hp2 : 0 < c.getD (i + 2) 0 := h3.2.2.2
            obtain ⟨hp, hlen, hcnt⟩ := ih (dec1 (dec1 (dec1 c i) (i + 1)) (i + 2))
              (by
                have s1 := sum_dec1_le (dec1 (dec1 c i) (i + 1)) (i + 2)
                have s2 := sum_dec1_le (dec1 c i) (i + 1)
                have s3 := sum_dec1_lt c i hpos
                omega)
              pair_idx _ d hmem2
            refine ⟨hp, hlen, ?_⟩
            intro j
            have := hcnt j
            rw [meldsCount_append] at this
            have htrip : meldsCount [⟨MeldKind.chi, false, (i, i + 1, i + 2)⟩] j =
                (if i = j then 1 else 0) + (if i + 1 = j then 1 else 0) +
                  (if i + 2 = j then 1 else 0) := by
              simp [meldsCount, tripleCount]
            rw [htrip, getD_rundec c i hpos hp1 hp2 j] at this
            rw [this]
            by_cases hj0 : j = i
            · subst hj0
              split_ifs <;> omega
            · by_cases hj1 : j = i + 1
              · subst hj1
                split_ifs <;> omega
              · by_cases hj2 : j = i + 2
                · subst hj2
                  split_ifs <;> omega
                · split_ifs <;> omega
          · rw [if_neg h3] at hmem2
            simp at hmem2

theorem upsert_values (m : List (DecompKey × Decomposition)) (k : DecompKey)
    (d : Decomposition) (P : Decomposition → Prop) (hm : ∀ p ∈ m, P p.2)
    (hd : P d) : ∀ p ∈ dictUpsert m k d, P p.2 := by
  intro p hp
  rw [dictUpsert] at hp
  split_ifs at hp with hany
  · rcases List.mem_map.mp hp with ⟨r, hr, hre⟩
    by_cases hrk : r.1 = k
    · rw [if_pos hrk] at hre
      rw [← hre]
      exact hd
    · rw [if_neg hrk] at hre
      rw [← hre]
      exact hm r hr
  · rcases List.mem_append.mp hp with h | h
    · exact hm p h
    · obtain rfl := List.mem_singleton.mp h
      exact hd

theorem foldl_upsert_pred (P : Decomposition → Prop) :
    ∀ (l : List Decomposition) (acc : List (DecompKey × Decomposition)),
    (∀ p ∈ acc, P p.2) → (∀ d ∈ l, P d) →
    ∀ p ∈ l.foldl (fun m d => dictUpsert m (dkey d) d) acc, P p.2 := by
  intro l
  induction l with
  | nil =>
    intro acc hacc _ p hp
    exact hacc p hp
  | cons d l ih =>
    intro acc hacc hl p hp
    rw [List.foldl_cons] at hp
    refine ih (dictUpsert acc (dkey d) d)
      (upsert_values acc (dkey d) d P hacc (hl d (by simp)))
      (fun x hx => hl x (by simp [hx])) p hp

/-- The de-duplication pass only keeps decompositions of its input. -/
theorem dedup_subset (l : List Decomposition) (d : Decomposition)
    (hd : d ∈ dedupDecomps l) : d ∈ l := by
  rw [dedupDecomps] at hd
  rcases List.mem_map.mp hd with ⟨p, hp, rfl⟩
  exact foldl_upsert_pred (· ∈ l) l [] (fun q hq => by simp at hq)
    (fun x hx => hx) p hp

theorem mem_foldr_append {α β : Type} (f : β → List α) :
    ∀ (l : List β) (x : α),
    x ∈ l.foldr (fun i acc => f i ++ acc) [] → ∃ i ∈ l, x ∈ f i := by
  intro l
  induction l with
  | nil =>
    intro x hx
    simp at hx
  | cons b l ih =>
    intro x hx
    rw [List.foldr_cons] at hx
    rcases List.mem_append.mp hx with h | h
    · exact ⟨b, by simp, h⟩
    · obtain ⟨i, hi, hxi⟩ := ih x h
      exact ⟨i, by simp [hi], hxi⟩

/-- C7: every decomposition returned for a 14-count vector accounts for
the vector exactly: the pair counted twice plus its four melds' tiles
reproduce every slot. -/
theorem C7_decomposition_exact (c : List Nat) (ds : List Decomposition)
    (d : Decomposition) (j : Nat) (hds : _decompose_standard_all c = some ds)
    (hd : d ∈ ds) :
    d.melds.length = 4 ∧ decompCount d j = c.getD j 0 := by
  unfold _decompose_standard_all at hds
  split_ifs at hds with hsum hagari
  · simp only [Option.some.injEq] at hds
    subst hds
    have hd2 := dedup_subset _ d hd
    obtain ⟨p, hpmem, hpin⟩ := mem_foldr_append
      (fun pair_idx =>
        if 2 ≤ c.getD pair_idx 0 then
          let counts := c.set pair_idx (c.getD pair_idx 0 - 2)
          if _honors_ok counts then decomposeRec pair_idx [] counts else []
        else []) (List.range 34) d hd2
    simp only [] at hpin
    split_ifs at hpin with h2 hhon
    · have hplen : p < c.length := lt_length_of_getD_pos c p (by omega)
      obtain ⟨hpair, hlen4, hcnt⟩ := decomposeRec_spec
        (c.set p (c.getD p 0 - 2)).sum _ (le_refl _) p [] d hpin
      refine ⟨hlen4, ?_⟩
      rw [decompCount, hpair, hcnt j]
      have hnil : meldsCount [] j = 0 := rfl
      rw [hnil]
      by_cases hj : j = p
      · subst hj
        rw [getD_set_self c j _ hplen]
        split_ifs <;> omega
      · rw [getD_set_ne c p j _ hj]
        split_ifs with hpj
        · omega
        · omega
    · simp at hpin
    · simp at hpin
  · obtain rfl : ([] : List Decomposition) = ds := Option.some.inj hds
    simp at hd

end Mahjong

namespace Mahjong

/-- C7 witness: the four-triplet honour hand `EEE SSS WWW NNN CC`. -/
theorem C7_witness :
    (_decompose_standard_all (List.replicate 27 0 ++ [3, 3, 3, 3, 0, 0, 2]) =
        some [⟨33, [⟨MeldKind.pon, false, (27, 27, 27)⟩,
          ⟨MeldKind.pon, false, (28, 28, 28)⟩,
          ⟨MeldKind.pon, false, (29, 29, 29)⟩,
          ⟨MeldKind.pon, false, (30, 30, 30)⟩]⟩] ∧
      (⟨33, [⟨MeldKind.pon, false, (27, 27, 27)⟩,
          ⟨MeldKind.pon, false, (28, 28, 28)⟩,
          ⟨MeldKind.pon, false, (29, 29, 29)⟩,
          ⟨MeldKind.pon, false, (30, 30, 30)⟩]⟩ : Decomposition) ∈
        [(⟨33, [⟨MeldKind.pon, false, (27, 27, 27)⟩,
          ⟨MeldKind.pon, false, (28, 28, 28)⟩,
          ⟨MeldKind.pon, false, (29, 29, 29)⟩,
          ⟨MeldKind.pon, false, (30, 30, 30)⟩]⟩ : Decomposition)]) ∧
    ((⟨33, [⟨MeldKind.pon, false, (27, 27, 27)⟩,
          ⟨MeldKind.pon, false, (28, 28, 28)⟩,
          ⟨MeldKind.pon, false, (29, 29, 29)⟩,
          ⟨MeldKind.pon, false, (30, 30, 30)⟩]⟩ : Decomposition).melds.length = 4 ∧
      decompCount ⟨33, [⟨MeldKind.pon, false, (27, 27, 27)⟩,
          ⟨MeldKind.pon, false, (28, 28, 28)⟩,
          ⟨MeldKind.pon, false, (29, 29, 29)⟩,
          ⟨MeldKind.pon, false, (30, 30, 30)⟩]⟩ 27 =
        (List.replicate 27 0 ++ [3, 3, 3, 3, 0, 0, 2]).getD 27 0) := by
  have hds : _decompose_standard_all (List.replicate 27 0 ++ [3, 3, 3, 3, 0, 0, 2]) =
      some [⟨33, [⟨MeldKind.pon, false, (27, 27, 27)⟩,
        ⟨MeldKind.pon, false, (28, 28, 28)⟩,
        ⟨MeldKind.pon, false, (29, 29, 29)⟩,
        ⟨MeldKind.pon, false, (30, 30, 30)⟩]⟩] := by
    unfold _decompose_standard_all
    simp only [← isAgariStandardF_eq, decomposeRec_as_F]
    decide
  have hd : (⟨33, [⟨MeldKind.pon, false, (27, 27, 27)⟩,
      ⟨MeldKind.pon, false, (28, 28, 28)⟩,
      ⟨MeldKind.pon, false, (29, 29, 29)⟩,
      ⟨MeldKind.pon, false, (30, 30, 30)⟩]⟩ : Decomposition) ∈
      [(⟨33, [⟨MeldKind.pon, false, (27, 27, 27)⟩,
      ⟨MeldKind.pon, false, (28, 28, 28)⟩,
      ⟨MeldKind.pon, false, (29, 29, 29)⟩,
      ⟨MeldKind.pon, false, (30, 30, 30)⟩]⟩ : Decomposition)] :=
    List.mem_singleton.mpr rfl
  exact ⟨⟨hds, hd⟩, C7_decomposition_exact _ _ _ 27 hds hd⟩

end Mahjong
